import Mathlib

/-!
# gardOS console driver, line editor and command loop (`kernel.c`)

A shallow embedding of `kernel.c` and a verification of its specification.

Modelling conventions:

* `vga_buffer` is a pointer to `uint16_t`; the memory behind it is a total
  map from the (signed) element index to the 16-bit unit stored there, and a
  read returns the unit last written. The 80x25 screen is the index range
  `0 .. 1999`.
* `cursor_row` and `cursor_col` are C `int`s; they are integers here. With
  the cursor inside the grid no `int` arithmetic of the source overflows;
  statements that do not assume this hold of the model for every cursor.
* a C `char` is the integer it is promoted to in an expression (the target
  is x86, where plain `char` is signed: `-128 .. 127`).
* a C string is the list of its characters; the end of the list stands for
  the terminating NUL, and so does a NUL inside the list.
* the keyboard is the list of raw codes that the successive reads of port
  `0x60` return (each read preceded by `wait_for_key`); a raw code is a
  `uint8_t`, here a natural number.
* the buffer behind `destination` is a total map from the index to the
  `char` stored there; the state of `input` also records the index of each
  assignment to it. The local array of `print_int` is modelled the same
  way, with a record of every index read or written.
* the `int` arithmetic of `str_to_int` and `print_int` wraps around to 32
  bits (two's complement), which is what the target does where the C
  standard leaves signed overflow undefined.
* the `do` loop of `print_int` takes a bound on its iterations (`fuel`) and
  yields `none` when the bound is reached; the bound 10 is shown to be
  enough for every 32-bit value.
* a function of the command loop that reads keys ends in one of three ways
  (`Outcome`): it returns, it waits for a key that never comes, or the
  machine is reset. The floating-point arithmetic of the `percentages`
  command is a parameter of the model (`Machine.percent`).
-/

namespace GardOS

/-! ## Display surface -/

/-- The constant `#define VGA_WIDTH 80`. -/
def VGA_WIDTH : Int := 80

/-- The constant `#define VGA_HEIGHT 25`. -/
def VGA_HEIGHT : Int := 25

/-- The constant `#define WHITE_ON_BLACK 0x0F`. -/
def WHITE_ON_BLACK : Nat := 0x0F

/-- The global state of the display: the memory behind `vga_buffer` and the
two static cursor variables. -/
structure Display where
  vga_buffer : Int → Nat
  cursor_row : Int
  cursor_col : Int

/-- The low 16 bits of an `int` value (two's complement): its conversion to
`uint16_t`. -/
def to_uint16 (v : Int) : Nat := (v % 65536).toNat

/-- The assignment `vga_buffer[i] = v`. -/
def poke (d : Display) (i : Int) (v : Nat) : Display :=
  { d with vga_buffer := fun j => if j = i then v else d.vga_buffer j }

/-- The loop `for (int i = lo; ...; i++) body`, run for `n` iterations
starting at `i = lo`. -/
def for_up {σ : Type} (body : Int → σ → σ) : Nat → Int → σ → σ
  | 0, _, s => s
  | n + 1, i, s => for_up body n (i + 1) (body i s)

/-- The loop `for (int i = lo; i < hi; i++) body`. -/
def for_loop {σ : Type} (lo hi : Int) (body : Int → σ → σ) (s : σ) : σ :=
  for_up body (hi - lo).toNat lo s

/-- The expression `(WHITE_ON_BLACK << 8) | c`, computed in `int` and
converted to `uint16_t` by the assignment it stands in. Bitwise or acts bit
by bit, so the low 16 bits of the result are the bitwise or of the low 16
bits of the operands; `c` is the promoted (sign-extended) `char`. -/
def vga_entry (c : Int) : Nat := ((WHITE_ON_BLACK <<< 8) ||| to_uint16 c) % 65536

/-- The local `uint16_t blank = (WHITE_ON_BLACK << 8) | ' ';` of `scroll` and
`clear_screen`. -/
def blank : Nat := vga_entry 32

/-- Index read by the copy statement of `scroll` at `(row, col)`. -/
def scroll_src (row col : Int) : Int := row * VGA_WIDTH + col

/-- Index written by the copy statement of `scroll` at `(row, col)`. -/
def scroll_dst (row col : Int) : Int := (row - 1) * VGA_WIDTH + col

/-- The statement
`vga_buffer[(row - 1) * VGA_WIDTH + col] = vga_buffer[row * VGA_WIDTH + col];` -/
def scroll_copy (row col : Int) (d : Display) : Display :=
  poke d (scroll_dst row col) (d.vga_buffer (scroll_src row col))

/-- The inner loop of `scroll` for one `row`. -/
def scroll_row (row : Int) (d : Display) : Display :=
  for_loop 0 VGA_WIDTH (scroll_copy row) d

/-- The second loop of `scroll`: the bottom row is filled with `blank`. -/
def scroll_fill (d : Display) : Display :=
  for_loop 0 VGA_WIDTH (fun col e => poke e ((VGA_HEIGHT - 1) * VGA_WIDTH + col) blank) d

/-- The function `void scroll()`: scrolls the screen up by one row. -/
def scroll (d : Display) : Display :=
  let d1 := for_loop 1 VGA_HEIGHT scroll_row d
  let d2 := scroll_fill d1
  { d2 with cursor_row := VGA_HEIGHT - 1, cursor_col := 0 }

/-- The function `void clear_screen()`: clears the entire screen and resets
the cursor. -/
def clear_screen (d : Display) : Display :=
  let d1 := for_loop 0 (VGA_WIDTH * VGA_HEIGHT) (fun i e => poke e i blank) d
  { d1 with cursor_row := 0, cursor_col := 0 }

/-- The final statement of `put_char`:
`if (cursor_row >= VGA_HEIGHT) scroll();` -/
def scroll_if_needed (d : Display) : Display :=
  if d.cursor_row ≥ VGA_HEIGHT then scroll d else d

/-- The function `void put_char(char c)`: prints one character at the cursor
and advances the cursor. -/
def put_char (c : Int) (d : Display) : Display :=
  scroll_if_needed
    (if c = 10 then
      { d with cursor_row := d.cursor_row + 1, cursor_col := 0 }
    else
      let d1 := poke d (d.cursor_row * VGA_WIDTH + d.cursor_col) (vga_entry c)
      let d2 := { d1 with cursor_col := d1.cursor_col + 1 }
      if d2.cursor_col ≥ VGA_WIDTH then
        { d2 with cursor_col := 0, cursor_row := d2.cursor_row + 1 }
      else d2)

/-- The function `void print_string(const char *str)`: `put_char` on each character up to
the terminating NUL. -/
def print_string : List Int → Display → Display
  | [], d => d
  | c :: cs, d => if c = 0 then d else print_string cs (put_char c d)

/-! ## Scancode translator -/

/-- The function `char scancode_to_ascii(uint8_t sc)`: maps simple keyboard scancodes to
ASCII characters; `0` stands for "no character". -/
def scancode_to_ascii (sc : Nat) : Int :=
  match sc with
  | 0x02 => 49 -- '1'
  | 0x03 => 50 -- '2'
  | 0x04 => 51 -- '3'
  | 0x05 => 52 -- '4'
  | 0x06 => 53 -- '5'
  | 0x07 => 54 -- '6'
  | 0x08 => 55 -- '7'
  | 0x09 => 56 -- '8'
  | 0x0A => 57 -- '9'
  | 0x0B => 48 -- '0'
  | 0x10 => 113 -- 'q'
  | 0x11 => 119 -- 'w'
  | 0x12 => 101 -- 'e'
  | 0x13 => 114 -- 'r'
  | 0x14 => 116 -- 't'
  | 0x15 => 121 -- 'y'
  | 0x16 => 117 -- 'u'
  | 0x17 => 105 -- 'i'
  | 0x18 => 111 -- 'o'
  | 0x19 => 112 -- 'p'
  | 0x0E => 8 -- backspace
  | 0x1E => 97 -- 'a'
  | 0x1F => 115 -- 's'
  | 0x20 => 100 -- 'd'
  | 0x21 => 102 -- 'f'
  | 0x22 => 103 -- 'g'
  | 0x23 => 104 -- 'h'
  | 0x24 => 106 -- 'j'
  | 0x25 => 107 -- 'k'
  | 0x26 => 108 -- 'l'
  | 0x1C => 10 -- Enter key: newline
  | 0x2C => 122 -- 'z'
  | 0x2D => 120 -- 'x'
  | 0x2E => 99 -- 'c'
  | 0x2F => 118 -- 'v'
  | 0x30 => 98 -- 'b'
  | 0x31 => 110 -- 'n'
  | 0x32 => 109 -- 'm'
  | 0x39 => 32 -- ' '
  | _ => 0

/-! ## Line editor -/

/-- The two states of one invocation of `input`: inside the `while (1)` loop,
or past its `break`. -/
inductive Phase where
  | collecting
  | done
  deriving DecidableEq, Repr

/-- The state of one invocation of `input`: the local `count`, the memory
behind the caller's `destination` pointer, the display, and the phase.
`stores` records the index of every assignment `destination[...] = ...`
executed so far, most recent first. -/
structure LineEditor where
  count : Int
  destination : Int → Int
  stores : List Int
  display : Display
  phase : Phase

/-- The assignment `destination[i] = v`. -/
def LineEditor.store (s : LineEditor) (i v : Int) : LineEditor :=
  { s with
    destination := fun j => if j = i then v else s.destination j
    stores := i :: s.stores }

/-- The display part of the backspace branch of `input`: the cursor moves
back one position and the character there is erased. -/
def input_backspace (d : Display) : Display :=
  let d1 : Display :=
    if d.cursor_col > 0 then
      { d with cursor_col := d.cursor_col - 1 }
    else if d.cursor_row > 0 then
      { d with cursor_row := d.cursor_row - 1, cursor_col := VGA_WIDTH - 1 }
    else d
  poke d1 (d1.cursor_row * VGA_WIDTH + d1.cursor_col) (vga_entry 32)

/-- One iteration of the `while (1)` loop of `input(len, destination)` on the
raw code `scancode` read from port `0x60`. -/
def input_step (len : Int) (scancode : Nat) (s : LineEditor) : LineEditor :=
  if scancode &&& 0x80 ≠ 0 then s
  else
    let c := scancode_to_ascii scancode
    if c = 0 then s
    else if c = 8 then
      if s.count > 0 then
        { s with count := s.count - 1, display := input_backspace s.display }
      else s
    else if c = 10 then
      { s.store s.count 0 with display := put_char 10 s.display, phase := Phase.done }
    else if s.count < len - 1 then
      { s.store s.count c with count := s.count + 1, display := put_char c s.display }
    else s

/-- The `while (1)` loop of `input` on the key events `keys`: it stops at
the `break`, returning the keys not consumed; when the keys run out first,
the editor is still collecting (blocked in `wait_for_key`). -/
def input_loop (len : Int) : List Nat → LineEditor → LineEditor × List Nat
  | [], s => (s, [])
  | k :: ks, s =>
    let s1 := input_step len k s
    if s1.phase = Phase.done then (s1, ks) else input_loop len ks s1

/-- The function `void input(int len, char *destination)` run on the key
events `keys`. -/
def input (len : Int) (keys : List Nat) (destination : Int → Int) (d : Display) :
    LineEditor × List Nat :=
  input_loop len keys
    { count := 0, destination := destination, stores := [], display := d,
      phase := Phase.collecting }

/-- A character that is a digit, a lowercase letter or the space. -/
def is_printable (c : Int) : Prop :=
  (48 ≤ c ∧ c ≤ 57) ∨ (97 ≤ c ∧ c ≤ 122) ∨ c = 32

instance (c : Int) : Decidable (is_printable c) := by
  unfold is_printable; infer_instance

/-- A raw code that translates to a digit, a letter or the space. -/
def printable_key (sc : Nat) : Prop := is_printable (scancode_to_ascii sc)

instance (sc : Nat) : Decidable (printable_key sc) := by
  unfold printable_key; infer_instance

/-- A sequence of `put_char` calls, one for each character of `cs` in order. -/
def put_chars (cs : List Int) (d : Display) : Display :=
  cs.foldl (fun e c => put_char c e) d

/-- The cursor lies inside the 80x25 grid. -/
def cursor_valid (d : Display) : Prop :=
  0 ≤ d.cursor_row ∧ d.cursor_row < VGA_HEIGHT ∧ 0 ≤ d.cursor_col ∧ d.cursor_col < VGA_WIDTH

instance (d : Display) : Decidable (cursor_valid d) := by
  unfold cursor_valid; infer_instance

/-! ## Definitions used in the statements and proofs -/

/-- The state `put_char c` reaches for `c` other than newline, just before
its final `if (cursor_row >= VGA_HEIGHT) scroll();`. -/
def put_char_written (c : Int) (d : Display) : Display :=
  { vga_buffer := (poke d (d.cursor_row * VGA_WIDTH + d.cursor_col) (vga_entry c)).vga_buffer
    cursor_row := if d.cursor_col + 1 ≥ VGA_WIDTH then d.cursor_row + 1 else d.cursor_row
    cursor_col := if d.cursor_col + 1 ≥ VGA_WIDTH then 0 else d.cursor_col + 1 }

/-- The loop of `input` run over key events none of which ends it. -/
def input_steps (len : Int) (ks : List Nat) (s : LineEditor) : LineEditor :=
  ks.foldl (fun e k => input_step len k e) s

/-- The first `n` characters of the buffer behind `destination`. -/
def buffer_chars (destination : Int → Int) (n : Nat) : List Int :=
  (List.range n).map (fun i : Nat => destination (i : Int))

/-- The keys of `ks` that still fit the buffer of `input(len, ...)` when
`count` characters are stored already. -/
def accepted_keys (len count : Int) (ks : List Nat) : List Nat :=
  ks.take (len - 1 - count).toNat

/-- The count and every index stored to so far lie in `0 .. len - 1`. -/
def editor_bounds (len : Int) (s : LineEditor) : Prop :=
  0 ≤ s.count ∧ s.count ≤ len - 1 ∧ ∀ i ∈ s.stores, 0 ≤ i ∧ i ≤ len - 1

/-- Index, after `put_char` on a character other than newline, of the cell
that this `put_char` wrote: the cell under the old cursor, or the one above
it when the `put_char` scrolled the screen. -/
def echo_cell (d : Display) : Int :=
  if d.cursor_row = 24 ∧ d.cursor_col = 79 then 23 * 80 + 79
  else d.cursor_row * 80 + d.cursor_col

/-- Index, after the `put_char` of the newline that follows an echo and a
backspace, of the cell that the echo wrote: `echo_cell`, moved up one row
when the newline scrolled the screen. -/
def echo_cell_at_return (d : Display) : Int :=
  if d.cursor_row = 24 then 23 * 80 + d.cursor_col else d.cursor_row * 80 + d.cursor_col

/-- Two display states show the same screen: equal cursors and equal
contents of all 80x25 cells. -/
def same_screen (d1 d2 : Display) : Prop :=
  d1.cursor_row = d2.cursor_row ∧ d1.cursor_col = d2.cursor_col ∧
    ∀ r c : Int, 0 ≤ r → r < VGA_HEIGHT → 0 ≤ c → c < VGA_WIDTH →
      d1.vga_buffer (r * VGA_WIDTH + c) = d2.vga_buffer (r * VGA_WIDTH + c)

/-- A display whose cell `i` holds the number `i`, with the cursor in the
bottom right corner. -/
def numbered_display : Display :=
  { vga_buffer := fun i => i.toNat, cursor_row := 24, cursor_col := 79 }

/-- A display whose memory holds the blank glyph everywhere, with the cursor
at `(row, col)`. -/
def blank_display (row col : Int) : Display :=
  { vga_buffer := fun _ => blank, cursor_row := row, cursor_col := col }

/-! ## Strings and number conversion -/

/-- The characters of the C string held by a list: those before the first
NUL (the end of the list stands for the terminating NUL). -/
def c_string : List Int → List Int
  | [] => []
  | c :: cs => if c = 0 then [] else c :: c_string cs

/-- The function `int strcmp(const char *s1, const char *s2)`: the loop
advances both pointers while `*s1 && *s2 && *s1 == *s2`, and the result is
`*s1 - *s2`. -/
def strcmp : List Int → List Int → Int
  | c1 :: r1, c2 :: r2 => if c1 ≠ 0 ∧ c2 ≠ 0 ∧ c1 = c2 then strcmp r1 r2 else c1 - c2
  | s1, s2 => s1.headD 0 - s2.headD 0

/-- The value of an `int` expression: two's complement wrap-around to 32
bits (the behaviour of the x86 target where the C standard leaves signed
overflow undefined). -/
def to_int32 (v : Int) : Int := (v + 2147483648) % 4294967296 - 2147483648

/-- The `for` loop of `str_to_int`, run on the characters from `str[i]` on
with the current value of `num`. -/
def str_to_int_loop (num : Int) : List Int → Int
  | [] => num
  | c :: cs =>
    if c = 0 then num
    else if c ≥ 48 ∧ c ≤ 57 then str_to_int_loop (to_int32 (num * 10 + (c - 48))) cs
    else num

/-- The function `int str_to_int(const char *str)`. -/
def str_to_int (str : List Int) : Int :=
  if str.headD 0 = 45 then to_int32 (str_to_int_loop 0 (str.drop 1) * (-1))
  else to_int32 (str_to_int_loop 0 str * 1)

/-- The maximal run of digits `'0'..'9'` at the start of a string. -/
def digit_run : List Int → List Int
  | [] => []
  | c :: cs => if 48 ≤ c ∧ c ≤ 57 then c :: digit_run cs else []

/-- The decimal value of a list of digit characters, continuing from the
value `v` of the digits before them. -/
def decimal_from (v : Int) (ds : List Int) : Int :=
  ds.foldl (fun a c => a * 10 + (c - 48)) v

/-- The decimal value of a list of digit characters (`0` for no digit). -/
def decimal_value (ds : List Int) : Int := decimal_from 0 ds

/-- The lenient-prefix reading of a string: the sign given by an optional
leading `'-'`, times the decimal value of the maximal run of digits that
follows it. -/
def lenient_value (s : List Int) : Int :=
  if s.headD 0 = 45 then (-1) * decimal_value (digit_run (s.drop 1))
  else 1 * decimal_value (digit_run s)

/-- The conversion of an `int` value to `char` (signed, 8 bits). -/
def to_char (v : Int) : Int := (v + 128) % 256 - 128

/-- The local state of `print_int`: the array `buffer`, the variables `i`
and `num`, and the record of every index at which `buffer` was read or
written so far, most recent first. -/
structure PrintInt where
  buffer : Int → Int
  i : Int
  num : Int
  touched : List Int

/-- A read of `buffer[k]`, recorded. -/
def PrintInt.touch (s : PrintInt) (k : Int) : PrintInt :=
  { s with touched := k :: s.touched }

/-- The assignment `buffer[k] = v`, recorded. -/
def PrintInt.put (s : PrintInt) (k v : Int) : PrintInt :=
  { s with
    buffer := fun j => if j = k then v else s.buffer j
    touched := k :: s.touched }

/-- The body of the `do` loop of `print_int`:
`buffer[i++] = '0' + (num % 10); num /= 10;` with the division and
remainder of C, which truncate towards zero. -/
def print_int_digit (s : PrintInt) : PrintInt :=
  let s1 := s.put s.i (to_char (48 + Int.tmod s.num 10))
  { s1 with i := s1.i + 1, num := Int.tdiv s1.num 10 }

/-- The loop `do { ... } while (num > 0);` of `print_int`, run for at most
`fuel` iterations: `none` when that many iterations do not end it. -/
def print_int_digits : Nat → PrintInt → Option PrintInt
  | 0, _ => none
  | fuel + 1, s =>
    let s1 := print_int_digit s
    if s1.num > 0 then print_int_digits fuel s1 else some s1

/-- The body of the reversal loop of `print_int`, for one `j`:
`temp = buffer[j]; buffer[j] = buffer[i - j - 1]; buffer[i - j - 1] = temp;` -/
def print_int_swap (j : Int) (s : PrintInt) : PrintInt :=
  let temp := s.buffer j
  let s1 := s.touch j
  let s2 := (s1.touch (s1.i - j - 1)).put j (s1.buffer (s1.i - j - 1))
  s2.put (s2.i - j - 1) temp

/-- The part of `print_int` after the `do` loop and before `print_string`:
`if (is_negative) buffer[i++] = '-'; buffer[i] = 0;` and the loop that
reverses `buffer[0 .. i-1]`. -/
def print_int_finish (is_negative : Bool) (s : PrintInt) : PrintInt :=
  let s1 := if is_negative then { s.put s.i 45 with i := s.i + 1 } else s
  let s2 := s1.put s1.i 0
  for_loop 0 (Int.tdiv s2.i 2) print_int_swap s2

/-- The function `void print_int(int num)` up to its call of `print_string`:
the state in which `buffer` is passed on. The array starts with the
arbitrary contents `junk`; the `do` loop gets `fuel` iterations. -/
def print_int_buffer (fuel : Nat) (num : Int) (junk : Int → Int) : Option PrintInt :=
  let is_negative := decide (num < 0)
  let num1 := if num < 0 then to_int32 (-num) else num
  match print_int_digits fuel { buffer := junk, i := 0, num := num1, touched := [] } with
  | none => none
  | some s => some (print_int_finish is_negative s)

/-- The function `void print_int(int num)`: the display after
`print_string(buffer)`, where `buffer` is the 12-byte local array. -/
def print_int (fuel : Nat) (num : Int) (junk : Int → Int) (d : Display) : Option Display :=
  match print_int_buffer fuel num junk with
  | none => none
  | some s => some (print_string (buffer_chars s.buffer 12) d)

/-- The decimal digits of a natural number as characters, most significant
first, without leading zeros; `0` is the single digit `'0'`. -/
def decimal_digits (n : Nat) : List Int :=
  if n = 0 then [48] else (Nat.digits 10 n).reverse.map (fun k : Nat => 48 + (k : Int))

/-- The standard sign-then-digits decimal rendering of an integer. -/
def int_rendering (n : Int) : List Int :=
  if n < 0 then 45 :: decimal_digits n.natAbs else decimal_digits n.natAbs

/-! ## Command loop -/

/-- The characters of a string literal of the source, as `char` values. -/
def str (s : String) : List Int := s.toList.map (fun c => (c.toNat : Int))

/-- The parts of the machine that `kernel.c` leaves open: the contents
`junk` of a local array before its first assignment, and the value
`percent int1 int2` of `(int)(((float)int1 / (float)int2) * 100)`, whose
floating-point arithmetic is outside this embedding. -/
structure Machine where
  junk : Int → Int
  percent : Int → Int → Int

/-- The state the command loop works on: the display and the key events
not yet read from port `0x60`. -/
structure Console where
  display : Display
  keys : List Nat

/-- How a run of a part of the command loop ends: it returns; or the key
events run out and it stays in `wait_for_key`; or `reboot` writes `0xFE`
to port `0x64`, which resets the machine. -/
inductive Outcome where
  | returned (w : Console)
  | waiting (d : Display)
  | reset (d : Display)

/-- A call `input(len, buf)` on a local array `buf` of `size` bytes, followed
by the rest `next` of the calling function, which gets the array. -/
def with_input (len : Int) (size : Nat) (m : Machine) (w : Console)
    (next : List Int → Console → Outcome) : Outcome :=
  let r := input len w.keys m.junk w.display
  if r.1.phase = Phase.done then
    next (buffer_chars r.1.destination size) { display := r.1.display, keys := r.2 }
  else Outcome.waiting r.1.display

/-- The statement `print_string(s)` on the console. -/
def Console.print (w : Console) (s : List Int) : Console :=
  { w with display := print_string s w.display }

/-- The branches of `execute_command`. -/
inductive Command where
  | clear
  | help
  | reboot
  | percentages
  | unknown
  deriving DecidableEq, Repr

/-- The chain of `strcmp` tests of `execute_command`. -/
def select_command (cmd : List Int) : Command :=
  if strcmp cmd (str "clear") = 0 then Command.clear
  else if strcmp cmd (str "help") = 0 then Command.help
  else if strcmp cmd (str "reboot") = 0 then Command.reboot
  else if strcmp cmd (str "percentages") = 0 then Command.percentages
  else Command.unknown

/-- The `help` branch of `execute_command`. -/
def help_command (w : Console) : Console :=
  (((w.print (10 :: str "Available commands:" ++ [10])).print
    (str "  clear - Clears the screen" ++ [10])).print
    (str "  reboot - Reboots the system" ++ [10])).print
    (str "  percentages - run the percentages program" ++ [10])

/-- The call `print_int(num)` on the console. Ten iterations of the `do`
loop are enough for every 32-bit `num`; were they not, the display would be
left as it is. -/
def Console.print_number (w : Console) (m : Machine) (num : Int) : Console :=
  match print_int 10 num m.junk w.display with
  | some d => { w with display := d }
  | none => w

/-- The `percentages` branch of `execute_command`. -/
def percentages_command (m : Machine) (w : Console) : Outcome :=
  with_input 9 10 m (w.print (str "num 1: ")) fun num1 w1 =>
    with_input 9 10 m ((w1.print [10]).print (str "num 2: ")) fun num2 w2 =>
      let w3 := w2.print [10]
      let int1 := str_to_int num1
      let int2 := str_to_int num2
      if int2 = 0 then
        Outcome.returned (w3.print (str "Error: Division by zero." ++ [10]))
      else
        Outcome.returned
          ((((w3.print (str "Result: ")).print_number m (to_int32 (m.percent int1 int2))).print
            (str "%" ++ [10])))

/-- The function `void execute_command(const char *cmd)`. -/
def execute_command (m : Machine) (cmd : List Int) (w : Console) : Outcome :=
  match select_command cmd with
  | Command.clear => Outcome.returned { w with display := clear_screen w.display }
  | Command.help => Outcome.returned (help_command w)
  | Command.reboot => Outcome.reset (w.print (10 :: str "Rebooting..." ++ [10])).display
  | Command.percentages => percentages_command m w
  | Command.unknown => Outcome.returned (w.print (10 :: str "Unknown command." ++ [10]))

/-- One iteration of the `while (1)` loop of `kernel_main`: the prompt, the
call `input(150, buffer)` on the 151-byte array, and `execute_command`. -/
def prompt_iteration (m : Machine) (w : Console) : Outcome :=
  with_input 150 151 m (w.print (str "[gardOS] $ ")) (execute_command m)

/-- The first `n` iterations of the `while (1)` loop of `kernel_main`. -/
def prompt_loop (m : Machine) : Nat → Console → Outcome
  | 0, w => Outcome.returned w
  | n + 1, w =>
    match prompt_iteration m w with
    | Outcome.returned w1 => prompt_loop m n w1
    | o => o

/-- The function `void kernel_main(void)`, up to the end of the `n`-th
iteration of its loop. -/
def kernel_main (m : Machine) (n : Nat) (w : Console) : Outcome :=
  prompt_loop m n
    (({ w with display := clear_screen w.display } : Console).print (List.replicate 80 61))

/-- The cell that a line of text `text`, written from column 0 of its row,
gives to column `c` (`other` beyond the end of the text). -/
def line_cell (text : List Int) (c : Int) (other : Nat) : Nat :=
  if 0 ≤ c then
    match text[c.toNat]? with
    | some ch => vga_entry ch
    | none => other
  else other

/-- The screen that shows the lines of text `rows` from row 0 on, each from
column 0, and the blank glyph everywhere else: its cell at `(r, c)`. -/
def text_screen (rows : List (List Int)) (r c : Int) : Nat :=
  if 0 ≤ r then
    match rows[r.toNat]? with
    | some text => line_cell text c blank
    | none => blank
  else blank

/-- The display shows the lines of text `rows` and nothing else, with the
cursor at the start of the row after them. -/
def shows_rows (rows : List (List Int)) (d : Display) : Prop :=
  d.cursor_row = (rows.length : Int) ∧ d.cursor_col = 0 ∧
  ∀ r c : Int, 0 ≤ r → r < VGA_HEIGHT → 0 ≤ c → c < VGA_WIDTH →
    d.vga_buffer (r * VGA_WIDTH + c) = text_screen rows r c

/-- The key presses that type `clear`. -/
def keys_clear : List Nat := [0x2E, 0x26, 0x12, 0x1E, 0x13]

/-- The key presses that type `help`. -/
def keys_help : List Nat := [0x23, 0x12, 0x26, 0x19]

/-- The screen after `clear`, Enter, `help`, Enter: the prompt line with the
echoed command, an empty row, and the four lines of the help text. -/
def help_rows : List (List Int) :=
  [str "[gardOS] $ help", [], str "Available commands:", str "  clear - Clears the screen",
    str "  reboot - Reboots the system", str "  percentages - run the percentages program"]

/-- A machine whose uninitialised arrays hold NUL bytes. -/
def zero_machine : Machine := { junk := fun _ => 0, percent := fun _ _ => 0 }

/-- The position of the cursor in row-major order. -/
def cursor_index (d : Display) : Int := d.cursor_row * VGA_WIDTH + d.cursor_col

/-- The cursor and the line buffer of `input` are in lock-step: the cursor
is inside the grid, and the `count` cells that precede it in row-major order
hold `destination[0 .. count-1]` in order, each a printable character
written by `put_char`. -/
def lock_step (s : LineEditor) : Prop :=
  cursor_valid s.display ∧ 0 ≤ s.count ∧ s.count ≤ cursor_index s.display ∧
  ∀ k : Int, 0 ≤ k → k < s.count →
    is_printable (s.destination k) ∧
    s.display.vga_buffer (cursor_index s.display - s.count + k) = vga_entry (s.destination k)

/-! ## Basic facts -/

theorem blank_eq : blank = 0x0F20 := by decide

theorem scancode_to_ascii_large (sc : Nat) (h : 0x39 < sc) : scancode_to_ascii sc = 0 := by
  unfold scancode_to_ascii
  split <;> omega

theorem printable_key_press (sc : Nat) (h : printable_key sc) : sc &&& 0x80 = 0 := by
  by_cases hs : 0x39 < sc
  · rw [printable_key, scancode_to_ascii_large sc hs] at h
    exact absurd h (by decide)
  · have : sc < 58 := by omega
    interval_cases sc <;> decide

/-! ## The loops of `scroll` in closed form -/

theorem display_eq (a b : Display) (h1 : a.vga_buffer = b.vga_buffer)
    (h2 : a.cursor_row = b.cursor_row) (h3 : a.cursor_col = b.cursor_col) : a = b := by
  cases a
  cases b
  simp only [Display.mk.injEq]
  exact ⟨h1, h2, h3⟩

theorem for_up_scroll_copy (row : Int) : ∀ (n : Nat) (c : Int) (d : Display),
    for_up (scroll_copy row) n c d =
      { d with
        vga_buffer := fun i =>
          if scroll_dst row c ≤ i ∧ i < scroll_dst row c + n then d.vga_buffer (i + 80)
          else d.vga_buffer i } := by
  intro n
  induction n with
  | zero =>
    intro c d
    refine display_eq _ _ ?_ rfl rfl
    funext i
    have : ¬ (scroll_dst row c ≤ i ∧ i < scroll_dst row c + ((0 : Nat) : Int)) := by omega
    simp only [for_up, this, if_false]
  | succ n ih =>
    intro c d
    rw [for_up, ih]
    refine display_eq _ _ ?_ rfl rfl
    funext i
    simp only [scroll_copy, poke, scroll_dst, scroll_src, VGA_WIDTH]
    push_cast
    split_ifs <;> first | rfl | omega | (congr 1; omega)

theorem scroll_row_eq (row : Int) (d : Display) :
    scroll_row row d =
      { d with
        vga_buffer := fun i =>
          if (row - 1) * 80 ≤ i ∧ i < (row - 1) * 80 + 80 then d.vga_buffer (i + 80)
          else d.vga_buffer i } := by
  have h : (VGA_WIDTH - 0).toNat = 80 := by decide
  rw [scroll_row, for_loop, h, for_up_scroll_copy]
  refine display_eq _ _ ?_ rfl rfl
  funext i
  simp only [scroll_dst, VGA_WIDTH]
  push_cast
  split_ifs <;> first | rfl | omega

theorem for_up_scroll_row : ∀ (n : Nat) (row : Int) (d : Display),
    for_up scroll_row n row d =
      { d with
        vga_buffer := fun i =>
          if (row - 1) * 80 ≤ i ∧ i < (row - 1) * 80 + 80 * n then d.vga_buffer (i + 80)
          else d.vga_buffer i } := by
  intro n
  induction n with
  | zero =>
    intro row d
    refine display_eq _ _ ?_ rfl rfl
    funext i
    have : ¬ ((row - 1) * 80 ≤ i ∧ i < (row - 1) * 80 + 80 * ((0 : Nat) : Int)) := by omega
    simp only [for_up, this, if_false]
  | succ n ih =>
    intro row d
    rw [for_up, ih, scroll_row_eq]
    refine display_eq _ _ ?_ rfl rfl
    funext i
    dsimp only
    push_cast
    split_ifs <;> first | rfl | omega

theorem for_up_fill (base : Int) (v : Nat) : ∀ (n : Nat) (c : Int) (d : Display),
    for_up (fun col e => poke e (base + col) v) n c d =
      { d with
        vga_buffer := fun i =>
          if base + c ≤ i ∧ i < base + c + n then v else d.vga_buffer i } := by
  intro n
  induction n with
  | zero =>
    intro c d
    refine display_eq _ _ ?_ rfl rfl
    funext i
    have : ¬ (base + c ≤ i ∧ i < base + c + ((0 : Nat) : Int)) := by omega
    simp only [for_up, this, if_false]
  | succ n ih =>
    intro c d
    rw [for_up, ih]
    refine display_eq _ _ ?_ rfl rfl
    funext i
    simp only [poke]
    push_cast
    split_ifs <;> first | rfl | omega

/-- The grid after `scroll`: every cell of rows `0 .. 23` holds what the cell
below it held, row `24` is blank, memory outside the grid is untouched. -/
theorem scroll_vga_buffer (d : Display) :
    (scroll d).vga_buffer =
      fun i => if 1920 ≤ i ∧ i < 2000 then blank
        else if 0 ≤ i ∧ i < 1920 then d.vga_buffer (i + 80) else d.vga_buffer i := by
  have h1 : (VGA_HEIGHT - 1).toNat = 24 := by decide
  have h2 : (VGA_WIDTH - 0).toNat = 80 := by decide
  have h3 : (VGA_HEIGHT - 1) * VGA_WIDTH = 1920 := by decide
  funext i
  simp only [scroll, scroll_fill, for_loop, h1, h2, h3, for_up_scroll_row, for_up_fill]
  push_cast
  rfl

/-! ## Cursor validity -/

theorem scroll_cursor_row (d : Display) : (scroll d).cursor_row = 24 := rfl

theorem scroll_cursor_col (d : Display) : (scroll d).cursor_col = 0 := rfl

theorem cursor_valid_scroll (d : Display) : cursor_valid (scroll d) := by
  simp [cursor_valid, scroll, VGA_HEIGHT, VGA_WIDTH]

theorem cursor_valid_clear_screen (d : Display) : cursor_valid (clear_screen d) := by
  simp [cursor_valid, clear_screen, VGA_HEIGHT, VGA_WIDTH]

theorem cursor_valid_scroll_if_needed (d : Display)
    (h : 0 ≤ d.cursor_row ∧ 0 ≤ d.cursor_col ∧ d.cursor_col < VGA_WIDTH) :
    cursor_valid (scroll_if_needed d) := by
  unfold scroll_if_needed
  split
  · exact cursor_valid_scroll d
  · simp only [cursor_valid, VGA_HEIGHT, VGA_WIDTH] at *
    omega

theorem cursor_valid_put_char (c : Int) (d : Display) (h : cursor_valid d) :
    cursor_valid (put_char c d) := by
  unfold put_char
  apply cursor_valid_scroll_if_needed
  simp only [cursor_valid, VGA_HEIGHT, VGA_WIDTH, poke] at *
  split
  · simp; omega
  · split <;> simp <;> omega

theorem cursor_valid_print_string (s : List Int) :
    ∀ d : Display, cursor_valid d → cursor_valid (print_string s d) := by
  induction s with
  | nil => intro d h; exact h
  | cons c cs ih =>
    intro d h
    unfold print_string
    split
    · exact h
    · exact ih _ (cursor_valid_put_char c d h)

theorem cursor_valid_input_backspace (d : Display) (h : cursor_valid d) :
    cursor_valid (input_backspace d) := by
  simp only [cursor_valid, VGA_HEIGHT, VGA_WIDTH, input_backspace, poke] at *
  split
  · simp; omega
  · split
    · simp; omega
    · omega

theorem cursor_valid_input_step (len : Int) (sc : Nat) (s : LineEditor)
    (h : cursor_valid s.display) : cursor_valid (input_step len sc s).display := by
  unfold input_step
  split
  · exact h
  · dsimp only
    split
    · exact h
    · split
      · split
        · exact cursor_valid_input_backspace _ h
        · exact h
      · split
        · exact cursor_valid_put_char _ _ h
        · split
          · exact cursor_valid_put_char _ _ h
          · exact h

/-! ## Cursor arithmetic of `put_char` -/

theorem put_char_eq_written (c : Int) (d : Display) (hc : c ≠ 10) :
    put_char c d = scroll_if_needed (put_char_written c d) := by
  unfold put_char put_char_written
  rw [if_neg hc]
  simp only [poke]
  split_ifs <;> rfl

theorem put_char_cursor (c : Int) (d : Display) (hc : c ≠ 10) (h : cursor_valid d) :
    (put_char c d).cursor_col = (d.cursor_col + 1) % 80 ∧
    (put_char c d).cursor_row = min (d.cursor_row + (d.cursor_col + 1) / 80) 24 := by
  rw [put_char_eq_written c d hc]
  simp only [cursor_valid, VGA_HEIGHT, VGA_WIDTH] at h
  unfold scroll_if_needed put_char_written
  simp only [VGA_HEIGHT, VGA_WIDTH]
  by_cases h1 : d.cursor_col + 1 ≥ 80
  · simp only [h1, if_true]
    by_cases h2 : d.cursor_row + 1 ≥ 25
    · simp only [h2, if_true, scroll, VGA_HEIGHT]
      omega
    · simp only [h2, if_false]
      omega
  · simp only [h1, if_false]
    have h2 : ¬ d.cursor_row ≥ 25 := by omega
    simp only [h2, if_false]
    omega

theorem put_chars_cursor (cs : List Int) : ∀ d : Display, cursor_valid d →
    (∀ c ∈ cs, c ≠ 10) →
    cursor_valid (put_chars cs d) ∧
    (put_chars cs d).cursor_col = (d.cursor_col + cs.length) % 80 ∧
    (put_chars cs d).cursor_row = min (d.cursor_row + (d.cursor_col + cs.length) / 80) 24 := by
  induction cs with
  | nil =>
    intro d h _
    simp only [cursor_valid, VGA_HEIGHT, VGA_WIDTH] at h
    refine ⟨h, ?_, ?_⟩ <;> simp only [put_chars, List.foldl, List.length_nil] <;> omega
  | cons c cs ih =>
    intro d h hcs
    have hc : c ≠ 10 := hcs c (List.mem_cons_self c cs)
    have hv := cursor_valid_put_char c d h
    obtain ⟨i1, i2, i3⟩ := ih (put_char c d) hv (fun x hx => hcs x (List.mem_cons_of_mem c hx))
    obtain ⟨s1, s2⟩ := put_char_cursor c d hc h
    have e : put_chars (c :: cs) d = put_chars cs (put_char c d) := rfl
    simp only [cursor_valid, VGA_HEIGHT, VGA_WIDTH] at h
    rw [e]
    refine ⟨i1, ?_, ?_⟩
    · rw [i2, s1, List.length_cons]; push_cast; omega
    · rw [i3, s1, s2, List.length_cons]; push_cast; omega

/-! ## One iteration of the loop of `input` -/

theorem printable_key_char (sc : Nat) (h : printable_key sc) :
    scancode_to_ascii sc ≠ 0 ∧ scancode_to_ascii sc ≠ 8 ∧ scancode_to_ascii sc ≠ 10 := by
  simp only [printable_key, is_printable] at h
  omega

theorem input_step_printable (len : Int) (sc : Nat) (s : LineEditor) (h : printable_key sc) :
    input_step len sc s =
      if s.count < len - 1 then
        { s.store s.count (scancode_to_ascii sc) with
          count := s.count + 1, display := put_char (scancode_to_ascii sc) s.display }
      else s := by
  obtain ⟨h0, h8, h10⟩ := printable_key_char sc h
  have hp : ¬ (sc &&& 0x80 ≠ 0) := not_not.mpr (printable_key_press sc h)
  unfold input_step
  rw [if_neg hp]
  dsimp only
  rw [if_neg h0, if_neg h8, if_neg h10]

theorem input_step_enter (len : Int) (s : LineEditor) :
    input_step len 0x1C s =
      { s.store s.count 0 with display := put_char 10 s.display, phase := Phase.done } := by
  unfold input_step
  rfl

theorem input_step_backspace (len : Int) (s : LineEditor) :
    input_step len 0x0E s =
      if s.count > 0 then
        { s with count := s.count - 1, display := input_backspace s.display }
      else s := by
  unfold input_step
  rfl

theorem input_step_phase (len : Int) (sc : Nat) (s : LineEditor)
    (h : scancode_to_ascii sc ≠ 10) : (input_step len sc s).phase = s.phase := by
  unfold input_step
  dsimp only
  rw [if_neg h]
  repeat' split
  all_goals rfl

theorem input_loop_append (len : Int) (tail : List Nat) : ∀ (ks : List Nat) (s : LineEditor),
    s.phase = Phase.collecting → (∀ k ∈ ks, scancode_to_ascii k ≠ 10) →
    input_loop len (ks ++ tail) s = input_loop len tail (input_steps len ks s) ∧
      (input_steps len ks s).phase = Phase.collecting := by
  intro ks
  induction ks with
  | nil => intro s hs _; exact ⟨rfl, hs⟩
  | cons k ks ih =>
    intro s hs hks
    have hk := hks k (List.mem_cons_self k ks)
    have hp : (input_step len k s).phase = Phase.collecting :=
      (input_step_phase len k s hk).trans hs
    have hnd : ¬ (input_step len k s).phase = Phase.done := by rw [hp]; decide
    obtain ⟨i1, i2⟩ := ih (input_step len k s) hp (fun x hx => hks x (List.mem_cons_of_mem k hx))
    refine ⟨?_, i2⟩
    rw [List.cons_append, input_loop, if_neg hnd, i1]
    rfl

/-! ## A run of printable keys -/

theorem input_steps_printable (len : Int) : ∀ (ks : List Nat) (s : LineEditor),
    (∀ k ∈ ks, printable_key k) →
    (input_steps len ks s).count = s.count + (accepted_keys len s.count ks).length ∧
    (input_steps len ks s).display =
      put_chars ((accepted_keys len s.count ks).map scancode_to_ascii) s.display ∧
    (∀ j : Int, j < s.count → (input_steps len ks s).destination j = s.destination j) ∧
    (List.range (accepted_keys len s.count ks).length).map
        (fun i : Nat => (input_steps len ks s).destination (s.count + (i : Int))) =
      (accepted_keys len s.count ks).map scancode_to_ascii := by
  intro ks
  induction ks with
  | nil =>
    intro s _
    simp [input_steps, accepted_keys, put_chars]
  | cons k ks ih =>
    intro s hks
    have hk := hks k (List.mem_cons_self k ks)
    have hrest : ∀ x ∈ ks, printable_key x := fun x hx => hks x (List.mem_cons_of_mem k hx)
    have e : input_steps len (k :: ks) s = input_steps len ks (input_step len k s) := rfl
    rw [e, input_step_printable len k s hk]
    by_cases hc : s.count < len - 1
    · rw [if_pos hc]
      obtain ⟨i1, i2, i3, i4⟩ := ih
        { s.store s.count (scancode_to_ascii k) with
          count := s.count + 1, display := put_char (scancode_to_ascii k) s.display } hrest
      dsimp only at i1 i2 i3 i4
      have hn : (len - 1 - s.count).toNat = (len - 1 - (s.count + 1)).toNat + 1 := by omega
      have ha : accepted_keys len s.count (k :: ks) =
          k :: accepted_keys len (s.count + 1) ks := by
        simp only [accepted_keys, hn, List.take_succ_cons]
      have h0 := i3 s.count (by omega)
      simp only [LineEditor.store, if_true] at h0
      rw [ha]
      refine ⟨?_, ?_, ?_, ?_⟩
      · rw [i1, List.length_cons]; push_cast; omega
      · rw [i2]; rfl
      · intro j hj
        rw [i3 j (by omega)]
        simp only [LineEditor.store]
        rw [if_neg (by omega)]
      · rw [List.length_cons, List.range_succ_eq_map, List.map_cons, List.map_cons,
          List.map_map]
        congr 1
        · rw [Nat.cast_zero, add_zero]; exact h0
        · rw [← i4]
          apply List.map_congr_left
          intro i _
          simp only [Function.comp, Nat.succ_eq_add_one]
          congr 1
          push_cast
          omega
    · rw [if_neg hc]
      obtain ⟨i1, i2, i3, i4⟩ := ih s hrest
      have hn : (len - 1 - s.count).toNat = 0 := by omega
      have ha : accepted_keys len s.count (k :: ks) = [] := by
        simp only [accepted_keys, hn, List.take_zero]
      have hb : accepted_keys len s.count ks = [] := by
        simp only [accepted_keys, hn, List.take_zero]
      rw [hb] at i1 i2 i4
      rw [ha]
      exact ⟨i1, i2, i3, i4⟩

/-- The result of `input` on a run of printable keys followed by Enter. -/
theorem input_printable_enter (len : Int) (ks rest : List Nat) (destination : Int → Int)
    (d : Display) (hks : ∀ k ∈ ks, printable_key k) :
    (input len (ks ++ 0x1C :: rest) destination d).2 = rest ∧
    (input len (ks ++ 0x1C :: rest) destination d).1.phase = Phase.done ∧
    (input len (ks ++ 0x1C :: rest) destination d).1.count = (accepted_keys len 0 ks).length ∧
    buffer_chars (input len (ks ++ 0x1C :: rest) destination d).1.destination
        (accepted_keys len 0 ks).length = (accepted_keys len 0 ks).map scancode_to_ascii ∧
    (input len (ks ++ 0x1C :: rest) destination d).1.destination
        ((accepted_keys len 0 ks).length : Int) = 0 ∧
    (input len (ks ++ 0x1C :: rest) destination d).1.display =
      put_char 10 (put_chars ((accepted_keys len 0 ks).map scancode_to_ascii) d) := by
  have hne : ∀ k ∈ ks, scancode_to_ascii k ≠ 10 := fun k hk => (printable_key_char k (hks k hk)).2.2
  obtain ⟨l1, _⟩ := input_loop_append len (0x1C :: rest) ks
    { count := 0, destination := destination, stores := [], display := d,
      phase := Phase.collecting } rfl hne
  obtain ⟨i1, i2, _, i4⟩ := input_steps_printable len ks
    { count := 0, destination := destination, stores := [], display := d,
      phase := Phase.collecting } hks
  dsimp only at i1 i2 i4
  rw [input, l1, input_loop, input_step_enter]
  simp only [if_true, LineEditor.store]
  refine ⟨trivial, trivial, ?_, ?_, ?_, ?_⟩
  · rw [i1, zero_add]
  · rw [← i4, buffer_chars]
    apply List.map_congr_left
    intro i hi
    have hi2 : (i : Int) < (accepted_keys len 0 ks).length := by
      exact_mod_cast List.mem_range.mp hi
    rw [i1, zero_add, if_neg (by omega), zero_add]
  · rw [i1, zero_add, if_pos rfl]
  · rw [i2]

/-! ## Bounds kept by the loop of `input` -/

theorem editor_bounds_input_step (len : Int) (sc : Nat) (s : LineEditor)
    (h : editor_bounds len s) : editor_bounds len (input_step len sc s) := by
  obtain ⟨h1, h2, h3⟩ := h
  unfold input_step
  dsimp only
  repeat' split
  all_goals first
    | exact ⟨h1, h2, h3⟩
    | (refine ⟨?_, ?_, ?_⟩
       · simp only [LineEditor.store]; omega
       · simp only [LineEditor.store]; omega
       · intro i hi
         simp only [LineEditor.store, List.mem_cons] at hi
         rcases hi with hi | hi
         · omega
         · exact h3 i hi)
    | (refine ⟨?_, ?_, h3⟩
       · show 0 ≤ s.count - 1
         omega
       · show s.count - 1 ≤ len - 1
         omega)

theorem input_step_done (len : Int) (sc : Nat) (s : LineEditor)
    (hs : s.phase = Phase.collecting) (hd : (input_step len sc s).phase = Phase.done) :
    (input_step len sc s).destination (input_step len sc s).count = 0 := by
  by_cases h : scancode_to_ascii sc = 10
  · by_cases hp : sc &&& 0x80 ≠ 0
    · rw [input_step, if_pos hp] at hd
      rw [hs] at hd
      exact absurd hd (by decide)
    · unfold input_step
      rw [if_neg hp]
      dsimp only
      rw [if_neg (by omega), if_neg (by omega), if_pos h]
      simp only [LineEditor.store, if_true]
  · rw [input_step_phase len sc s h, hs] at hd
    exact absurd hd (by decide)

theorem input_loop_bounds (len : Int) : ∀ (keys : List Nat) (s : LineEditor),
    editor_bounds len s → s.phase = Phase.collecting →
    editor_bounds len (input_loop len keys s).1 ∧
    ((input_loop len keys s).1.phase = Phase.done →
      (input_loop len keys s).1.destination (input_loop len keys s).1.count = 0) := by
  intro keys
  induction keys with
  | nil =>
    intro s hb hs
    refine ⟨hb, fun hd => ?_⟩
    rw [input_loop, hs] at hd
    exact absurd hd (by decide)
  | cons k ks ih =>
    intro s hb hs
    have hb1 := editor_bounds_input_step len k s hb
    rw [input_loop]
    by_cases hd : (input_step len k s).phase = Phase.done
    · rw [if_pos hd]
      exact ⟨hb1, fun _ => input_step_done len k s hs hd⟩
    · rw [if_neg hd]
      apply ih _ hb1
      cases hq : (input_step len k s).phase with
      | collecting => rfl
      | done => exact absurd hq hd

/-! ## Echo followed by backspace -/

theorem put_char_echo_cell (c : Int) (d : Display) (hc : c ≠ 10) (h : cursor_valid d) :
    (put_char c d).vga_buffer (echo_cell d) = vga_entry c := by
  rw [put_char_eq_written c d hc]
  simp only [cursor_valid, VGA_HEIGHT, VGA_WIDTH] at h
  unfold scroll_if_needed echo_cell
  by_cases hq : d.cursor_row = 24 ∧ d.cursor_col = 79
  · have hs : (put_char_written c d).cursor_row ≥ VGA_HEIGHT := by
      simp only [put_char_written, VGA_HEIGHT, VGA_WIDTH]
      split_ifs <;> omega
    rw [if_pos hs, if_pos hq, scroll_vga_buffer]
    simp only [put_char_written, poke, VGA_WIDTH, hq.1, hq.2]
    norm_num
  · have hs : ¬ (put_char_written c d).cursor_row ≥ VGA_HEIGHT := by
      simp only [put_char_written, VGA_HEIGHT, VGA_WIDTH]
      split_ifs <;> omega
    rw [if_neg hs, if_neg hq]
    simp only [put_char_written, poke, VGA_WIDTH, if_true]

theorem input_backspace_scroll (w : Display) :
    input_backspace (scroll w) =
      { vga_buffer := fun j => if j = 23 * 80 + 79 then vga_entry 32 else (scroll w).vga_buffer j
        cursor_row := 23
        cursor_col := 79 } := rfl

theorem backspace_after_put_char (c : Int) (d : Display) (hc : c ≠ 10) (h : cursor_valid d) :
    (input_backspace (put_char c d)).cursor_row * 80 +
        (input_backspace (put_char c d)).cursor_col = echo_cell d ∧
    (input_backspace (put_char c d)).cursor_row =
      (if d.cursor_row = 24 ∧ d.cursor_col = 79 then 23 else d.cursor_row) ∧
    (input_backspace (put_char c d)).vga_buffer (echo_cell d) = blank ∧
    (input_backspace (put_char c d)).vga_buffer (d.cursor_row * 80 + d.cursor_col) = blank := by
  obtain ⟨k1, k2⟩ := put_char_cursor c d hc h
  simp only [cursor_valid, VGA_HEIGHT, VGA_WIDTH] at h
  have hrow : (input_backspace (put_char c d)).cursor_row =
      (if d.cursor_row = 24 ∧ d.cursor_col = 79 then 23 else d.cursor_row) := by
    simp only [input_backspace, VGA_WIDTH, poke]
    split_ifs <;> (try dsimp only) <;> omega
  have hcol : (input_backspace (put_char c d)).cursor_col = d.cursor_col := by
    simp only [input_backspace, VGA_WIDTH, poke]
    split_ifs <;> (try dsimp only) <;> omega
  have hpos : (input_backspace (put_char c d)).cursor_row * 80 +
      (input_backspace (put_char c d)).cursor_col = echo_cell d := by
    rw [hrow, hcol, echo_cell]
    split_ifs <;> omega
  have hcell : ∀ e : Display,
      (input_backspace e).vga_buffer
        ((input_backspace e).cursor_row * 80 + (input_backspace e).cursor_col) = blank := by
    intro e
    simp only [input_backspace, VGA_WIDTH, poke, if_true]
    rfl
  have hecho : (input_backspace (put_char c d)).vga_buffer (echo_cell d) = blank := by
    rw [← hpos]
    exact hcell _
  refine ⟨hpos, hrow, hecho, ?_⟩
  by_cases hq : d.cursor_row = 24 ∧ d.cursor_col = 79
  · have e1 : put_char c d = scroll (put_char_written c d) := by
      rw [put_char_eq_written c d hc, scroll_if_needed, if_pos]
      simp only [put_char_written, VGA_HEIGHT, VGA_WIDTH]
      split_ifs <;> omega
    rw [e1, input_backspace_scroll, hq.1, hq.2]
    simp only [poke, scroll_vga_buffer]
    norm_num
  · have e2 : echo_cell d = d.cursor_row * 80 + d.cursor_col := by
      rw [echo_cell, if_neg hq]
    rw [← e2]
    exact hecho

theorem put_char_newline_buffer (e : Display) :
    (put_char 10 e).vga_buffer =
      if e.cursor_row + 1 ≥ 25 then
        fun i => if 1920 ≤ i ∧ i < 2000 then blank
          else if 0 ≤ i ∧ i < 1920 then e.vga_buffer (i + 80) else e.vga_buffer i
      else e.vga_buffer := by
  unfold put_char scroll_if_needed
  rw [if_pos rfl]
  simp only [VGA_HEIGHT]
  split
  · rw [scroll_vga_buffer]
  · rfl

theorem newline_after_backspace (c : Int) (d : Display) (hc : c ≠ 10) (h : cursor_valid d) :
    (put_char 10 (input_backspace (put_char c d))).vga_buffer
        (d.cursor_row * 80 + d.cursor_col) = blank ∧
    (put_char 10 (input_backspace (put_char c d))).vga_buffer (echo_cell_at_return d) =
      blank := by
  obtain ⟨_, b2, b3, b4⟩ := backspace_after_put_char c d hc h
  simp only [cursor_valid, VGA_HEIGHT, VGA_WIDTH] at h
  unfold echo_cell_at_return
  unfold echo_cell at b3
  by_cases h1 : d.cursor_row = 24
  · by_cases h2 : d.cursor_col = 79
    · rw [if_pos ⟨h1, h2⟩] at b2 b3
      have hb : (put_char 10 (input_backspace (put_char c d))).vga_buffer =
          (input_backspace (put_char c d)).vga_buffer := by
        rw [put_char_newline_buffer, b2, if_neg (by decide)]
      rw [hb, if_pos h1, h2]
      exact ⟨h2 ▸ b4, b3⟩
    · rw [if_neg (fun x => h2 x.2)] at b2
      have hb : (put_char 10 (input_backspace (put_char c d))).vga_buffer =
          fun i => if 1920 ≤ i ∧ i < 2000 then blank
            else if 0 ≤ i ∧ i < 1920 then (input_backspace (put_char c d)).vga_buffer (i + 80)
            else (input_backspace (put_char c d)).vga_buffer i := by
        rw [put_char_newline_buffer, b2, if_pos (by omega)]
      rw [hb, if_pos h1]
      dsimp only
      refine ⟨?_, ?_⟩
      · rw [if_pos (by omega)]
      · rw [if_neg (by omega), if_pos (by omega), ← b4]
        congr 1
        omega
  · rw [if_neg (fun x => h1 x.1)] at b2
    have hb : (put_char 10 (input_backspace (put_char c d))).vga_buffer =
        (input_backspace (put_char c d)).vga_buffer := by
      rw [put_char_newline_buffer, b2, if_neg (by omega)]
    rw [hb, if_neg h1]
    exact ⟨b4, b4⟩

theorem input_steps_key_backspace (len : Int) (X : Nat) (destination : Int → Int)
    (d : Display) (hlen : 2 ≤ len) (hX : printable_key X) :
    input_steps len [X, 0x0E]
        { count := 0, destination := destination, stores := [], display := d,
          phase := Phase.collecting } =
      { count := 0
        destination := fun j => if j = 0 then scancode_to_ascii X else destination j
        stores := [0]
        display := input_backspace (put_char (scancode_to_ascii X) d)
        phase := Phase.collecting } := by
  have h1 : (0 : Int) < len - 1 := by omega
  simp only [input_steps, List.foldl]
  rw [input_step_printable len X _ hX]
  dsimp only
  rw [if_pos h1, input_step_backspace]
  dsimp only [LineEditor.store]
  rw [if_pos (by decide)]
  rfl

/-! ## Repeated scrolling -/

theorem iterate_scroll_cursor (n : Nat) (d : Display) :
    (scroll^[n + 1] d).cursor_row = 24 ∧ (scroll^[n + 1] d).cursor_col = 0 := by
  rw [Function.iterate_succ_apply']
  exact ⟨rfl, rfl⟩

theorem iterate_scroll_blank : ∀ (n : Nat) (d : Display) (i : Int),
    2000 - 80 * (n : Int) ≤ i → 0 ≤ i → i < 2000 → (scroll^[n] d).vga_buffer i = blank := by
  intro n
  induction n with
  | zero => intro d i h1 h2 h3; omega
  | succ n ih =>
    intro d i h1 h2 h3
    rw [Function.iterate_succ_apply', scroll_vga_buffer]
    dsimp only
    split_ifs with ha hb
    · rfl
    · exact ih d (i + 80) (by push_cast at h1; omega) (by omega) (by omega)
    · omega

/-! ## The scancode table -/

theorem scancode_to_ascii_newline (sc : Nat) : scancode_to_ascii sc = 10 ↔ sc = 0x1C := by
  unfold scancode_to_ascii
  split <;> first | omega | simp_all

theorem letters_covered (L : Int) (h1 : 97 ≤ L) (h2 : L ≤ 122) :
    ∃ sc : Nat, sc < 256 ∧ scancode_to_ascii sc = L := by
  interval_cases L
  · exact ⟨0x1E, by decide, rfl⟩
  · exact ⟨0x30, by decide, rfl⟩
  · exact ⟨0x2E, by decide, rfl⟩
  · exact ⟨0x20, by decide, rfl⟩
  · exact ⟨0x12, by decide, rfl⟩
  · exact ⟨0x21, by decide, rfl⟩
  · exact ⟨0x22, by decide, rfl⟩
  · exact ⟨0x23, by decide, rfl⟩
  · exact ⟨0x17, by decide, rfl⟩
  · exact ⟨0x24, by decide, rfl⟩
  · exact ⟨0x25, by decide, rfl⟩
  · exact ⟨0x26, by decide, rfl⟩
  · exact ⟨0x32, by decide, rfl⟩
  · exact ⟨0x31, by decide, rfl⟩
  · exact ⟨0x18, by decide, rfl⟩
  · exact ⟨0x19, by decide, rfl⟩
  · exact ⟨0x10, by decide, rfl⟩
  · exact ⟨0x13, by decide, rfl⟩
  · exact ⟨0x1F, by decide, rfl⟩
  · exact ⟨0x14, by decide, rfl⟩
  · exact ⟨0x16, by decide, rfl⟩
  · exact ⟨0x2F, by decide, rfl⟩
  · exact ⟨0x11, by decide, rfl⟩
  · exact ⟨0x2D, by decide, rfl⟩
  · exact ⟨0x15, by decide, rfl⟩
  · exact ⟨0x2C, by decide, rfl⟩

/-! ## The exit of the loop of `input` -/

theorem input_step_enter_phase (len : Int) (s : LineEditor) :
    (input_step len 0x1C s).phase = Phase.done := by
  rw [input_step_enter]

theorem input_loop_done_iff (len : Int) : ∀ (keys : List Nat) (s : LineEditor),
    s.phase = Phase.collecting →
    ((input_loop len keys s).1.phase = Phase.done ↔ 0x1C ∈ keys) := by
  intro keys
  induction keys with
  | nil =>
    intro s hs
    rw [input_loop, hs]
    simp
  | cons k ks ih =>
    intro s hs
    rw [input_loop]
    by_cases hk : k = 0x1C
    · subst hk
      rw [if_pos (input_step_enter_phase len s)]
      simp [input_step_enter_phase]
    · have hne : scancode_to_ascii k ≠ 10 := fun h => hk ((scancode_to_ascii_newline k).mp h)
      have hp : (input_step len k s).phase = Phase.collecting :=
        (input_step_phase len k s hne).trans hs
      have hnd : ¬ (input_step len k s).phase = Phase.done := by rw [hp]; decide
      rw [if_neg hnd, ih _ hp, List.mem_cons]
      constructor
      · exact fun h => Or.inr h
      · rintro (h | h)
        · exact absurd h.symm hk
        · exact h

/-! ## Facts on `strcmp` and `str_to_int` -/

theorem strcmp_eq_zero_iff : ∀ s1 s2 : List Int,
    strcmp s1 s2 = 0 ↔ c_string s1 = c_string s2 := by
  intro s1
  induction s1 with
  | nil =>
    intro s2
    cases s2 with
    | nil => simp [strcmp, c_string]
    | cons c2 r2 =>
      simp only [strcmp, c_string, List.headD_nil, List.headD_cons]
      by_cases h : c2 = 0
      · simp [h]
      · simp only [if_neg h]
        constructor
        · intro h0; omega
        · intro h0; exact absurd h0 (by simp)
  | cons c1 r1 ih =>
    intro s2
    cases s2 with
    | nil =>
      simp only [strcmp, c_string, List.headD_nil, List.headD_cons]
      by_cases h : c1 = 0
      · simp [h]
      · simp only [if_neg h]
        constructor
        · intro h0; omega
        · intro h0; exact absurd h0 (by simp)
    | cons c2 r2 =>
      simp only [strcmp, c_string]
      by_cases h1 : c1 = 0
      · by_cases h2 : c2 = 0
        · simp [h1, h2]
        · simp only [h1, if_neg h2, ne_eq, not_true_eq_false, false_and, if_false, if_true]
          constructor
          · intro h0; omega
          · intro h0; exact absurd h0 (by simp)
      · by_cases h2 : c2 = 0
        · simp only [h2, if_neg h1, ne_eq, not_true_eq_false, false_and, and_false, if_false,
            if_true]
          constructor
          · intro h0; omega
          · intro h0; exact absurd h0 (by simp)
        · by_cases h3 : c1 = c2
          · subst h3
            rw [if_pos ⟨h1, h1, rfl⟩, if_neg h1, if_neg h1, ih]
            constructor
            · intro h0; rw [h0]
            · intro h0; exact (List.cons.inj h0).2
          · rw [if_neg (fun x => h3 x.2.2), if_neg h1, if_neg h2]
            constructor
            · intro h0; omega
            · intro h0
              exact absurd (List.cons.inj h0).1 h3

theorem to_int32_of_range (v : Int) (h1 : -2147483648 ≤ v) (h2 : v ≤ 2147483647) :
    to_int32 v = v := by
  unfold to_int32
  omega

theorem digit_run_digits : ∀ (s : List Int) (c : Int), c ∈ digit_run s → 48 ≤ c ∧ c ≤ 57 := by
  intro s
  induction s with
  | nil => intro c hc; exact absurd hc (List.not_mem_nil c)
  | cons a r ih =>
    intro c hc
    unfold digit_run at hc
    split at hc
    · rcases List.mem_cons.mp hc with h | h
      · subst h; assumption
      · exact ih c h
    · exact absurd hc (List.not_mem_nil c)

theorem decimal_from_ge : ∀ (ds : List Int) (v : Int), 0 ≤ v →
    (∀ c ∈ ds, 48 ≤ c ∧ c ≤ 57) → v ≤ decimal_from v ds := by
  intro ds
  induction ds with
  | nil => intro v _ _; exact le_refl v
  | cons d r ih =>
    intro v hv hd
    have h := hd d (List.mem_cons_self d r)
    have := ih (v * 10 + (d - 48)) (by omega) (fun c hc => hd c (List.mem_cons_of_mem d hc))
    simp only [decimal_from, List.foldl_cons] at this ⊢
    omega

theorem str_to_int_loop_eq : ∀ (s : List Int) (num : Int), 0 ≤ num →
    decimal_from num (digit_run s) ≤ 2147483647 →
    str_to_int_loop num s = decimal_from num (digit_run s) := by
  intro s
  induction s with
  | nil => intro num _ _; rfl
  | cons c r ih =>
    intro num h0 hb
    unfold str_to_int_loop digit_run
    unfold digit_run at hb
    by_cases hd : 48 ≤ c ∧ c ≤ 57
    · rw [if_neg (by omega), if_pos ⟨hd.1, hd.2⟩, if_pos hd]
      rw [if_pos hd] at hb
      have e : decimal_from num (c :: digit_run r) =
          decimal_from (num * 10 + (c - 48)) (digit_run r) := rfl
      rw [e] at hb ⊢
      have hge := decimal_from_ge (digit_run r) (num * 10 + (c - 48)) (by omega)
        (digit_run_digits r)
      rw [to_int32_of_range _ (by omega) (by omega)]
      exact ih _ (by omega) hb
    · rw [if_neg hd]
      have hd2 : ¬ (c ≥ 48 ∧ c ≤ 57) := fun x => hd ⟨x.1, x.2⟩
      rw [if_neg hd2]
      split <;> rfl

theorem str_to_int_eq (s : List Int)
    (h : decimal_value (digit_run (if s.headD 0 = 45 then s.drop 1 else s)) ≤ 2147483647) :
    str_to_int s = lenient_value s := by
  unfold str_to_int lenient_value
  by_cases hm : s.headD 0 = 45
  · rw [if_pos hm] at h
    have hge := decimal_from_ge (digit_run (s.drop 1)) 0 (le_refl 0) (digit_run_digits _)
    rw [if_pos hm, if_pos hm, str_to_int_loop_eq _ 0 (le_refl 0) h]
    unfold decimal_value at h ⊢
    rw [to_int32_of_range _ (by omega) (by omega)]
    omega
  · rw [if_neg hm] at h
    have hge := decimal_from_ge (digit_run s) 0 (le_refl 0) (digit_run_digits _)
    rw [if_neg hm, if_neg hm, str_to_int_loop_eq _ 0 (le_refl 0) h]
    unfold decimal_value at h ⊢
    rw [to_int32_of_range _ (by omega) (by omega)]
    omega

/-! ## The digit loop of `print_int` -/

theorem to_char_of_range (v : Int) (h1 : -128 ≤ v) (h2 : v ≤ 127) : to_char v = v := by
  unfold to_char
  omega

theorem buffer_chars_succ (f : Int → Int) (n : Nat) :
    buffer_chars f (n + 1) = f 0 :: buffer_chars (fun k => f (k + 1)) n := by
  unfold buffer_chars
  rw [List.range_succ_eq_map, List.map_cons, List.map_map]
  congr 1

theorem buffer_chars_length (f : Int → Int) (n : Nat) : (buffer_chars f n).length = n := by
  simp [buffer_chars]

theorem buffer_chars_congr (f g : Int → Int) (n : Nat)
    (h : ∀ k : Nat, k < n → f k = g k) : buffer_chars f n = buffer_chars g n := by
  unfold buffer_chars
  apply List.map_congr_left
  intro k hk
  exact h k (List.mem_range.mp hk)

theorem digits_le_step (n : Nat) (h : 10 ≤ n) :
    (Nat.digits 10 n).map (fun k : Nat => 48 + (k : Int)) =
      (48 + ((n % 10 : Nat) : Int)) ::
        (Nat.digits 10 (n / 10)).map (fun k : Nat => 48 + (k : Int)) := by
  rw [Nat.digits_def' (by decide) (by omega), List.map_cons]

theorem print_int_digits_spec : ∀ (fuel n : Nat) (s : PrintInt),
    s.num = (n : Int) → 0 < n → n < 10 ^ (fuel + 1) →
    ∃ r : PrintInt, print_int_digits (fuel + 1) s = some r ∧
      r.i = s.i + ((Nat.digits 10 n).length : Int) ∧
      (Nat.digits 10 n).length ≤ fuel + 1 ∧
      buffer_chars (fun k => r.buffer (s.i + k)) (Nat.digits 10 n).length =
        (Nat.digits 10 n).map (fun k : Nat => 48 + (k : Int)) ∧
      (∀ j : Int, j < s.i → r.buffer j = s.buffer j) ∧
      (∀ x ∈ r.touched, x ∈ s.touched ∨
        (s.i ≤ x ∧ x < s.i + ((Nat.digits 10 n).length : Int))) := by
  intro fuel
  induction fuel with
  | zero =>
    intro n s hs h0 hn
    have hn10 : n < 10 := by simpa using hn
    have hd : Nat.digits 10 n = [n] := Nat.digits_of_lt 10 n (by omega) hn10
    have hnum : (print_int_digit s).num = 0 := by
      simp only [print_int_digit, PrintInt.put, hs]
      rw [Int.tdiv_eq_ediv (by omega) (by decide)]
      omega
    refine ⟨print_int_digit s, ?_, ?_, ?_, ?_, ?_, ?_⟩
    · simp only [print_int_digits, hnum]
      rfl
    · rw [hd]
      simp [print_int_digit, PrintInt.put]
    · rw [hd]
      simp
    · rw [hd]
      simp only [List.length_singleton, List.map_cons, List.map_nil, buffer_chars,
        List.range_succ, List.range_zero, List.nil_append, print_int_digit, PrintInt.put, hs]
      rw [Int.tmod_eq_emod (by omega) (by decide), if_pos (by simp),
        to_char_of_range _ (by omega) (by omega)]
      congr 1
      omega
    · intro j hj
      simp only [print_int_digit, PrintInt.put]
      rw [if_neg (by omega)]
    · intro x hx
      rw [hd]
      simp only [print_int_digit, PrintInt.put, List.mem_cons] at hx
      rcases hx with hx | hx
      · right
        simp only [List.length_singleton]
        omega
      · exact Or.inl hx
  | succ f ih =>
    intro n s hs h0 hn
    by_cases hn10 : n < 10
    · obtain ⟨r, h1, h2, h3, h4, h5, h6⟩ := ih n s hs h0
        (lt_of_lt_of_le hn10 (by
          calc 10 = 10 ^ 1 := by norm_num
            _ ≤ 10 ^ (f + 1) := Nat.pow_le_pow_right (by decide) (by omega)))
      have hnum : (print_int_digit s).num = 0 := by
        simp only [print_int_digit, PrintInt.put, hs]
        rw [Int.tdiv_eq_ediv (by omega) (by decide)]
        omega
      refine ⟨r, ?_, h2, by omega, h4, h5, h6⟩
      rw [print_int_digits] at h1 ⊢
      simp only [hnum, gt_iff_lt, lt_self_iff_false, if_false] at h1 ⊢
      exact h1
    · have hq : 0 < n / 10 := by omega
      have hqb : n / 10 < 10 ^ (f + 1) := by
        have : n < 10 ^ (f + 1) * 10 := by
          rw [← pow_succ]
          exact hn
        omega
      have hnum : (print_int_digit s).num = ((n / 10 : Nat) : Int) := by
        simp only [print_int_digit, PrintInt.put, hs]
        rw [Int.tdiv_eq_ediv (by omega) (by decide)]
        push_cast
        rfl
      obtain ⟨r, h1, h2, h3, h4, h5, h6⟩ := ih (n / 10) (print_int_digit s) hnum hq hqb
      have hi : (print_int_digit s).i = s.i + 1 := rfl
      have hlen : (Nat.digits 10 n).length = (Nat.digits 10 (n / 10)).length + 1 := by
        rw [Nat.digits_def' (by decide) (by omega), List.length_cons]
      have hcell : r.buffer s.i = 48 + ((n % 10 : Nat) : Int) := by
        rw [h5 s.i (by rw [hi]; omega)]
        simp only [print_int_digit, PrintInt.put, if_true, hs]
        rw [Int.tmod_eq_emod (by omega) (by decide), to_char_of_range _ (by omega) (by omega)]
        push_cast
        rfl
      refine ⟨r, ?_, ?_, ?_, ?_, ?_, ?_⟩
      · rw [print_int_digits]
        have hpos : (print_int_digit s).num > 0 := by rw [hnum]; exact_mod_cast hq
        simp only [hpos, if_true]
        exact h1
      · rw [h2, hi, hlen]
        push_cast
        omega
      · rw [hlen]
        omega
      · rw [hlen, buffer_chars_succ, digits_le_step n (by omega)]
        congr 1
        · rw [add_zero]
          exact hcell
        · rw [← h4]
          apply buffer_chars_congr
          intro k _
          dsimp only
          rw [hi]
          congr 1
          omega
      · intro j hj
        rw [h5 j (by rw [hi]; omega)]
        simp only [print_int_digit, PrintInt.put]
        rw [if_neg (by omega)]
      · intro x hx
        rcases h6 x hx with h | h
        · simp only [print_int_digit, PrintInt.put, List.mem_cons] at h
          rcases h with h | h
          · right
            rw [hlen]
            push_cast
            omega
          · exact Or.inl h
        · right
          rw [hi] at h
          rw [hlen]
          push_cast
          omega

theorem print_int_digits_small (fuel : Nat) (s : PrintInt) (h : Int.tdiv s.num 10 ≤ 0) :
    print_int_digits (fuel + 1) s = some (print_int_digit s) := by
  have hnum : ¬ (print_int_digit s).num > 0 := by
    simp only [print_int_digit, PrintInt.put]
    omega
  rw [print_int_digits]
  simp only [hnum, if_false]

/-! ## The reversal loop of `print_int` -/

theorem print_int_swap_i (j : Int) (s : PrintInt) : (print_int_swap j s).i = s.i := rfl

theorem print_int_swap_buffer (j : Int) (s : PrintInt) (k : Int) :
    (print_int_swap j s).buffer k =
      if k = s.i - j - 1 then s.buffer j
      else if k = j then s.buffer (s.i - j - 1) else s.buffer k := rfl

theorem print_int_swap_touched (j : Int) (s : PrintInt) :
    (print_int_swap j s).touched = (s.i - j - 1) :: j :: (s.i - j - 1) :: j :: s.touched := rfl

theorem for_up_print_int_swap : ∀ (cnt : Nat) (j0 : Int) (s : PrintInt),
    0 ≤ j0 → 2 * (j0 + cnt) ≤ s.i →
    (for_up print_int_swap cnt j0 s).i = s.i ∧
    (∀ k : Int, (for_up print_int_swap cnt j0 s).buffer k =
      if (j0 ≤ k ∧ k < j0 + cnt) ∨ (s.i - j0 - cnt ≤ k ∧ k < s.i - j0)
      then s.buffer (s.i - 1 - k) else s.buffer k) ∧
    (∀ x ∈ (for_up print_int_swap cnt j0 s).touched, x ∈ s.touched ∨ (0 ≤ x ∧ x < s.i)) := by
  intro cnt
  induction cnt with
  | zero =>
    intro j0 s _ _
    refine ⟨rfl, ?_, fun x hx => Or.inl hx⟩
    intro k
    have : ¬ ((j0 ≤ k ∧ k < j0 + ((0 : Nat) : Int)) ∨
        (s.i - j0 - ((0 : Nat) : Int) ≤ k ∧ k < s.i - j0)) := by omega
    rw [if_neg this]
    rfl
  | succ n ih =>
    intro j0 s h0 hb
    push_cast at hb
    obtain ⟨i1, i2, i3⟩ := ih (j0 + 1) (print_int_swap j0 s) (by omega)
      (by rw [print_int_swap_i]; omega)
    rw [print_int_swap_i] at i1
    refine ⟨i1, ?_, ?_⟩
    · intro k
      rw [for_up, i2 k]
      simp only [print_int_swap_i, print_int_swap_buffer]
      push_cast
      split_ifs <;> first | rfl | omega | (congr 1; omega)
    · intro x hx
      rw [for_up] at hx
      rcases i3 x hx with h | h
      · rw [print_int_swap_touched] at h
        simp only [List.mem_cons] at h
        rcases h with h | h | h | h | h
        · right; omega
        · right; omega
        · right; omega
        · right; omega
        · exact Or.inl h
      · right
        rw [print_int_swap_i] at h
        exact h

/-- The reversal loop of `print_int` on a state with `i = m`: the cells
`0 .. m-1` are reversed, every other cell is kept, and only indices in
`0 .. m-1` are touched. -/
theorem print_int_reverse (s : PrintInt) (h : 0 ≤ s.i) :
    (for_loop 0 (Int.tdiv s.i 2) print_int_swap s).i = s.i ∧
    (∀ k : Int, 0 ≤ k → k < s.i →
      (for_loop 0 (Int.tdiv s.i 2) print_int_swap s).buffer k = s.buffer (s.i - 1 - k)) ∧
    (∀ k : Int, (k < 0 ∨ s.i ≤ k) →
      (for_loop 0 (Int.tdiv s.i 2) print_int_swap s).buffer k = s.buffer k) ∧
    (∀ x ∈ (for_loop 0 (Int.tdiv s.i 2) print_int_swap s).touched,
      x ∈ s.touched ∨ (0 ≤ x ∧ x < s.i)) := by
  have hd : Int.tdiv s.i 2 = s.i / 2 := Int.tdiv_eq_ediv h (by decide)
  have hc : (((s.i / 2 - 0).toNat : Nat) : Int) = s.i / 2 := by omega
  obtain ⟨i1, i2, i3⟩ := for_up_print_int_swap (s.i / 2 - 0).toNat 0 s (le_refl 0)
    (by rw [hc]; omega)
  rw [for_loop, hd]
  refine ⟨i1, ?_, ?_, i3⟩
  · intro k hk1 hk2
    rw [i2 k, hc]
    split_ifs with hq
    · rfl
    · congr 1
      omega
  · intro k hk
    rw [i2 k, hc, if_neg (by omega)]

/-! ## The string built by `print_int` -/

theorem print_int_digits_mono : ∀ (fuel : Nat) (s r : PrintInt),
    print_int_digits fuel s = some r → print_int_digits (fuel + 1) s = some r := by
  intro fuel
  induction fuel with
  | zero => intro s r h; exact absurd h (by simp [print_int_digits])
  | succ f ih =>
    intro s r h
    rw [print_int_digits] at h ⊢
    split
    · rename_i hp
      rw [if_pos hp] at h
      exact ih _ _ h
    · rename_i hp
      rw [if_neg hp] at h
      exact h

theorem print_int_digits_mono_add (fuel : Nat) (s r : PrintInt)
    (h : print_int_digits fuel s = some r) : ∀ k : Nat, print_int_digits (fuel + k) s = some r := by
  intro k
  induction k with
  | zero => exact h
  | succ k ih => exact print_int_digits_mono _ _ _ ih

theorem buffer_chars_snoc (f : Int → Int) (n : Nat) :
    buffer_chars f (n + 1) = buffer_chars f n ++ [f n] := by
  simp [buffer_chars, List.range_succ]

theorem buffer_chars_add (f : Int → Int) (m k : Nat) :
    buffer_chars f (m + k) = buffer_chars f m ++ buffer_chars (fun j => f (m + j)) k := by
  simp only [buffer_chars, List.range_add, List.map_append, List.map_map]
  rfl

theorem buffer_chars_reverse (f g : Int → Int) (m : Nat)
    (h : ∀ k : Int, 0 ≤ k → k < m → g k = f (m - 1 - k)) :
    buffer_chars g m = (buffer_chars f m).reverse := by
  apply List.ext_getElem
  · simp [buffer_chars]
  · intro k h1 h2
    have hk : k < m := by simpa [buffer_chars] using h1
    simp only [buffer_chars, List.getElem_reverse, List.getElem_map, List.getElem_range,
      List.length_map, List.length_range]
    rw [h k (by omega) (by omega)]
    congr 1
    omega

theorem c_string_append_nul : ∀ (a b : List Int), (∀ c ∈ a, c ≠ 0) →
    c_string (a ++ 0 :: b) = a := by
  intro a
  induction a with
  | nil => intro b _; simp [c_string]
  | cons x r ih =>
    intro b h
    have hx : x ≠ 0 := h x (List.mem_cons_self x r)
    rw [List.cons_append, c_string, if_neg hx, ih b (fun c hc => h c (List.mem_cons_of_mem x hc))]

/-- When the first `m < n` cells of an array hold a text without NUL and
cell `m` holds NUL, the C string in the array is that text. -/
theorem c_string_array (f : Int → Int) (m n : Nat) (text : List Int) (hm : m < n)
    (ht : buffer_chars f m = text) (h0 : f m = 0) (hne : ∀ c ∈ text, c ≠ 0) :
    c_string (buffer_chars f n) = text := by
  obtain ⟨k, rfl⟩ : ∃ k, n = m + (k + 1) := ⟨n - m - 1, by omega⟩
  rw [buffer_chars_add, buffer_chars_succ, ht]
  rw [add_zero, h0]
  exact c_string_append_nul text _ hne

theorem print_int_tail_nonneg (s : PrintInt) (len : Nat) (hi : s.i = (len : Int))
    (ht : ∀ x ∈ s.touched, 0 ≤ x ∧ x < (len : Int)) :
    (print_int_finish false s).i = (len : Int) ∧
    buffer_chars (print_int_finish false s).buffer len =
      (buffer_chars s.buffer len).reverse ∧
    (print_int_finish false s).buffer len = 0 ∧
    (∀ x ∈ (print_int_finish false s).touched,
      0 ≤ x ∧ x ≤ (len : Int)) := by
  have e : print_int_finish false s =
      for_loop 0 (Int.tdiv (s.put s.i 0).i 2) print_int_swap (s.put s.i 0) := rfl
  rw [e]
  have hi2 : (s.put s.i 0).i = (len : Int) := hi
  obtain ⟨r1, r2, r3, r4⟩ := print_int_reverse (s.put s.i 0) (by rw [hi2]; omega)
  rw [hi2] at r1 r2 r3 r4
  rw [hi2]
  refine ⟨r1, ?_, ?_, ?_⟩
  · apply buffer_chars_reverse
    intro k hk1 hk2
    rw [r2 k hk1 hk2]
    simp only [PrintInt.put]
    rw [if_neg (by omega)]
  · rw [r3 len (Or.inr (le_refl _))]
    simp only [PrintInt.put, hi, if_true]
  · intro x hx
    rcases r4 x hx with h | h
    · simp only [PrintInt.put, List.mem_cons] at h
      rcases h with h | h
      · omega
      · have := ht x h
        omega
    · omega

theorem print_int_tail_neg (s : PrintInt) (len : Nat) (hi : s.i = (len : Int))
    (ht : ∀ x ∈ s.touched, 0 ≤ x ∧ x < (len : Int)) :
    (print_int_finish true s).i =
      (len : Int) + 1 ∧
    buffer_chars (print_int_finish true s).buffer
        (len + 1) = 45 :: (buffer_chars s.buffer len).reverse ∧
    (print_int_finish true s).buffer
        ((len : Int) + 1) = 0 ∧
    (∀ x ∈ (print_int_finish true s).touched,
      0 ≤ x ∧ x ≤ (len : Int) + 1) := by
  have e0 : print_int_finish true s =
      for_loop 0 (Int.tdiv (PrintInt.put { s.put s.i 45 with i := s.i + 1 } (s.i + 1) 0).i 2)
        print_int_swap (PrintInt.put { s.put s.i 45 with i := s.i + 1 } (s.i + 1) 0) := rfl
  rw [e0]
  have hi2 : (PrintInt.put { s.put s.i 45 with i := s.i + 1 } (s.i + 1) 0).i = (len : Int) + 1 := by
    simp only [PrintInt.put, hi]
  have hb : ∀ k : Int, (PrintInt.put { s.put s.i 45 with i := s.i + 1 } (s.i + 1) 0).buffer k =
      if k = (len : Int) + 1 then 0 else if k = len then 45 else s.buffer k := by
    intro k
    simp only [PrintInt.put, hi]
  obtain ⟨r1, r2, r3, r4⟩ := print_int_reverse
    (PrintInt.put { s.put s.i 45 with i := s.i + 1 } (s.i + 1) 0) (by rw [hi2]; omega)
  rw [hi2] at r1 r2 r3 r4
  rw [hi2]
  refine ⟨r1, ?_, ?_, ?_⟩
  · have e : (45 : Int) :: (buffer_chars s.buffer len).reverse =
        (buffer_chars (fun k => if k = (len : Int) + 1 then 0 else if k = len then 45
          else s.buffer k) (len + 1)).reverse := by
      rw [buffer_chars_snoc, List.reverse_append, List.reverse_singleton, List.singleton_append]
      congr 1
      · rw [if_neg (by omega), if_pos rfl]
      · congr 1
        apply buffer_chars_congr
        intro k hk
        rw [if_neg (by omega), if_neg (by omega)]
    rw [e]
    apply buffer_chars_reverse
    intro k hk1 hk2
    push_cast at hk2 ⊢
    rw [r2 k hk1 hk2, hb]
  · rw [r3 ((len : Int) + 1) (Or.inr (le_refl _)), hb, if_pos rfl]
  · intro x hx
    rcases r4 x hx with h | h
    · simp only [PrintInt.put, List.mem_cons, hi] at h
      rcases h with h | h | h
      · omega
      · omega
      · have := ht x h
        omega
    · omega

theorem int_rendering_ne_nul (n : Int) : ∀ c ∈ int_rendering n, c ≠ 0 := by
  have hd : ∀ m : Nat, ∀ c ∈ decimal_digits m, c ≠ 0 := by
    intro m c hc
    unfold decimal_digits at hc
    split at hc
    · simp only [List.mem_singleton] at hc
      omega
    · obtain ⟨k, _, rfl⟩ := List.mem_map.mp hc
      omega
  intro c hc
  unfold int_rendering at hc
  split at hc
  · rcases List.mem_cons.mp hc with h | h
    · omega
    · exact hd _ c h
  · exact hd _ c hc

theorem print_int_digits_pos (fuel : Nat) (hf : 10 ≤ fuel) (m : Nat) (junk : Int → Int)
    (h0 : 0 < m) (hm : m ≤ 2147483647) :
    ∃ s : PrintInt,
      print_int_digits fuel { buffer := junk, i := 0, num := (m : Int), touched := [] } = some s ∧
      s.i = ((Nat.digits 10 m).length : Int) ∧
      (Nat.digits 10 m).length ≤ 10 ∧
      buffer_chars s.buffer (Nat.digits 10 m).length =
        (Nat.digits 10 m).map (fun k : Nat => 48 + (k : Int)) ∧
      (∀ x ∈ s.touched, 0 ≤ x ∧ x < ((Nat.digits 10 m).length : Int)) := by
  obtain ⟨s, d1, d2, d3, d4, _, d6⟩ := print_int_digits_spec 9 m
    { buffer := junk, i := 0, num := (m : Int), touched := [] } rfl h0
    (lt_of_le_of_lt hm (by norm_num))
  obtain ⟨k, rfl⟩ : ∃ k, fuel = 10 + k := ⟨fuel - 10, by omega⟩
  refine ⟨s, print_int_digits_mono_add _ _ _ d1 k, ?_, d3, ?_, ?_⟩
  · rw [d2]
    exact zero_add _
  · rw [← d4]
    apply buffer_chars_congr
    intro j _
    dsimp only
    rw [zero_add]
  · intro x hx
    rcases d6 x hx with h | h
    · exact absurd h (List.not_mem_nil x)
    · dsimp only at h
      omega

/-- The state in which `print_int` passes `buffer` to `print_string`, for
every `num` other than the most negative `int`: the array holds the
standard rendering followed by NUL, and only indices in `0 .. 11` have
been read or written. -/
theorem print_int_buffer_spec (fuel : Nat) (hf : 10 ≤ fuel) (n : Int) (junk : Int → Int)
    (h1 : -2147483647 ≤ n) (h2 : n ≤ 2147483647) :
    ∃ r : PrintInt, print_int_buffer fuel n junk = some r ∧
      r.i = ((int_rendering n).length : Int) ∧
      buffer_chars r.buffer (int_rendering n).length = int_rendering n ∧
      r.buffer ((int_rendering n).length : Int) = 0 ∧
      (int_rendering n).length ≤ 11 ∧
      (∀ x ∈ r.touched, 0 ≤ x ∧ x ≤ 11) := by
  obtain ⟨f, rfl⟩ : ∃ f, fuel = f + 1 := ⟨fuel - 1, by omega⟩
  rcases lt_trichotomy n 0 with hn | hn | hn
  · -- negative
    have hto : to_int32 (-n) = ((n.natAbs : Nat) : Int) := by
      rw [to_int32_of_range _ (by omega) (by omega)]
      omega
    obtain ⟨s, d1, d2, d3, d4, d5⟩ := print_int_digits_pos (f + 1) hf n.natAbs junk
      (by omega) (by omega)
    obtain ⟨t1, t2, t3, t4⟩ := print_int_tail_neg s _ d2 d5
    have hr : int_rendering n =
        45 :: ((Nat.digits 10 n.natAbs).map (fun k : Nat => 48 + (k : Int))).reverse := by
      rw [int_rendering, if_pos hn, decimal_digits, if_neg (by omega), List.map_reverse]
    have hlen : (int_rendering n).length = (Nat.digits 10 n.natAbs).length + 1 := by
      rw [hr]
      simp
    refine ⟨print_int_finish true s, ?_, ?_, ?_, ?_, ?_, ?_⟩
    · simp only [print_int_buffer, hn, if_true, hto, d1, decide_True]
    · rw [hlen]
      push_cast
      exact t1
    · rw [hlen, hr, ← d4]
      exact t2
    · rw [hlen]
      push_cast
      exact t3
    · omega
    · intro x hx
      have := t4 x hx
      omega
  · -- zero
    subst hn
    have hs : print_int_digits (f + 1) { buffer := junk, i := 0, num := 0, touched := [] } =
        some (print_int_digit { buffer := junk, i := 0, num := 0, touched := [] }) :=
      print_int_digits_small f _ (show Int.tdiv (0 : Int) 10 ≤ 0 by decide)
    obtain ⟨t1, t2, t3, t4⟩ := print_int_tail_nonneg
      (print_int_digit { buffer := junk, i := 0, num := 0, touched := [] }) 1 rfl
      (by
        intro x hx
        simp only [print_int_digit, PrintInt.put, List.mem_singleton] at hx
        omega)
    have hr : int_rendering 0 = [48] := by decide
    refine ⟨print_int_finish false
      (print_int_digit { buffer := junk, i := 0, num := 0, touched := [] }), ?_, ?_, ?_, ?_,
      ?_, ?_⟩
    · simp only [print_int_buffer, lt_self_iff_false, if_false, hs, decide_False]
    · rw [hr]
      exact t1
    · rw [hr]
      exact t2
    · rw [hr]
      exact t3
    · rw [hr]
      decide
    · intro x hx
      have := t4 x hx
      omega
  · -- positive
    have hto : n = ((n.natAbs : Nat) : Int) := by omega
    obtain ⟨s, d1, d2, d3, d4, d5⟩ := print_int_digits_pos (f + 1) hf n.natAbs junk
      (by omega) (by omega)
    obtain ⟨t1, t2, t3, t4⟩ := print_int_tail_nonneg s _ d2 d5
    have hr : int_rendering n =
        ((Nat.digits 10 n.natAbs).map (fun k : Nat => 48 + (k : Int))).reverse := by
      rw [int_rendering, if_neg (by omega), decimal_digits, if_neg (by omega), List.map_reverse]
    have hlen : (int_rendering n).length = (Nat.digits 10 n.natAbs).length := by
      rw [hr]
      simp
    have hnn : ¬ n < 0 := by omega
    refine ⟨print_int_finish false s, ?_, ?_, ?_, ?_, ?_, ?_⟩
    · rw [← hto] at d1
      simp only [print_int_buffer, hnn, if_false, d1, decide_False]
    · rw [hlen]
      exact t1
    · rw [hlen, hr, ← d4]
      exact t2
    · rw [hlen]
      exact t3
    · omega
    · intro x hx
      have := t4 x hx
      omega

/-- At the most negative `int` the negation wraps around to the same value,
the `do` loop runs once on a negative `num` and stores `'0' + (-8)`, the
character `'('`; the string passed on is `-(`. -/
theorem print_int_buffer_int_min (fuel : Nat) (junk : Int → Int) :
    (print_int_buffer (fuel + 1) (-2147483648) junk).map
        (fun s => (c_string (buffer_chars s.buffer 12), s.i, s.buffer 2, s.touched)) =
      some ([45, 40], 2, 0, [1, 0, 1, 0, 2, 1, 0]) := rfl

/-! ## Reading back a rendering -/

theorem decimal_digits_digits (m : Nat) : ∀ c ∈ decimal_digits m, 48 ≤ c ∧ c ≤ 57 := by
  intro c hc
  unfold decimal_digits at hc
  split at hc
  · simp only [List.mem_singleton] at hc
    omega
  · obtain ⟨k, hk, rfl⟩ := List.mem_map.mp hc
    have := Nat.digits_lt_base (by decide : 1 < 10) (List.mem_reverse.mp hk)
    omega

theorem digit_run_append_nul : ∀ (ds rest : List Int), (∀ c ∈ ds, 48 ≤ c ∧ c ≤ 57) →
    digit_run (ds ++ 0 :: rest) = ds := by
  intro ds
  induction ds with
  | nil => intro rest _; simp [digit_run]
  | cons d r ih =>
    intro rest h
    have hd := h d (List.mem_cons_self d r)
    rw [List.cons_append, digit_run, if_pos hd,
      ih rest (fun c hc => h c (List.mem_cons_of_mem d hc))]

theorem decimal_from_reverse_digits : ∀ L : List Nat,
    decimal_from 0 (L.reverse.map (fun k : Nat => 48 + (k : Int))) =
      ((Nat.ofDigits 10 L : Nat) : Int) := by
  intro L
  induction L with
  | nil => simp [decimal_from]
  | cons d r ih =>
    rw [List.reverse_cons, List.map_append, decimal_from, List.foldl_append]
    rw [decimal_from] at ih
    rw [ih, Nat.ofDigits_cons]
    simp only [List.map_cons, List.map_nil, List.foldl_cons, List.foldl_nil]
    push_cast
    omega

theorem decimal_value_decimal_digits (m : Nat) :
    decimal_value (decimal_digits m) = (m : Int) := by
  unfold decimal_value decimal_digits
  split
  · rename_i h
    subst h
    simp [decimal_from]
  · rw [decimal_from_reverse_digits, Nat.ofDigits_digits]

theorem decimal_digits_ne_nil (m : Nat) : decimal_digits m ≠ [] := by
  unfold decimal_digits
  split
  · simp
  · rename_i h
    intro hnil
    have : Nat.digits 10 m ≠ [] := Nat.digits_ne_nil_iff_ne_zero.mpr h
    simp only [List.map_eq_nil_iff, List.reverse_eq_nil_iff] at hnil
    exact this hnil

/-- Reading back the standard rendering of `n`, followed by NUL and
anything, gives `n`. -/
theorem str_to_int_rendering (n : Int) (rest : List Int) (h1 : -2147483647 ≤ n)
    (h2 : n ≤ 2147483647) : str_to_int (int_rendering n ++ 0 :: rest) = n := by
  by_cases hn : n < 0
  · have hr : int_rendering n ++ 0 :: rest = 45 :: (decimal_digits n.natAbs ++ 0 :: rest) := by
      rw [int_rendering, if_pos hn]
      rfl
    have hrun : digit_run (decimal_digits n.natAbs ++ 0 :: rest) = decimal_digits n.natAbs :=
      digit_run_append_nul _ _ (decimal_digits_digits _)
    rw [hr, str_to_int_eq]
    · simp only [lenient_value, List.headD_cons, if_true, List.drop_succ_cons, List.drop_zero,
        hrun, decimal_value_decimal_digits]
      omega
    · simp only [List.headD_cons, if_true, List.drop_succ_cons, List.drop_zero, hrun,
        decimal_value_decimal_digits]
      omega
  · have hr : int_rendering n = decimal_digits n.natAbs := by
      rw [int_rendering, if_neg hn]
    have hrun : digit_run (decimal_digits n.natAbs ++ 0 :: rest) = decimal_digits n.natAbs :=
      digit_run_append_nul _ _ (decimal_digits_digits _)
    have hhead : (decimal_digits n.natAbs ++ 0 :: rest).headD 0 ≠ 45 := by
      cases hq : decimal_digits n.natAbs with
      | nil => exact absurd hq (decimal_digits_ne_nil _)
      | cons d r =>
        have := decimal_digits_digits n.natAbs d (by rw [hq]; exact List.mem_cons_self d r)
        simp only [List.cons_append, List.headD_cons]
        omega
    rw [hr, str_to_int_eq]
    · simp only [lenient_value, if_neg hhead, hrun, decimal_value_decimal_digits]
      omega
    · simp only [if_neg hhead, hrun, decimal_value_decimal_digits]
      omega

/-- The 12-byte array that `print_int` passes on starts with the standard
rendering of `num` followed by NUL. -/
theorem print_int_array (r : PrintInt) (text : List Int) (hlen : text.length ≤ 11)
    (ht : buffer_chars r.buffer text.length = text) (h0 : r.buffer (text.length : Int) = 0) :
    ∃ rest : List Int, buffer_chars r.buffer 12 = text ++ 0 :: rest := by
  obtain ⟨k, hk⟩ : ∃ k, 12 = text.length + (k + 1) := ⟨12 - text.length - 1, by omega⟩
  refine ⟨buffer_chars (fun j => r.buffer ((text.length : Int) + (j + 1))) k, ?_⟩
  rw [hk, buffer_chars_add, buffer_chars_succ, ht, add_zero, h0]

theorem print_int_buffer_digits (fuel : Nat) (n : Int) (junk : Int → Int) (r : PrintInt)
    (h : print_int_buffer fuel n junk = some r) :
    ∃ s : PrintInt, print_int_digits fuel
      { buffer := junk, i := 0, num := if n < 0 then to_int32 (-n) else n, touched := [] } =
        some s := by
  unfold print_int_buffer at h
  dsimp only at h
  split at h
  · exact absurd h (by simp)
  · rename_i s hs
    exact ⟨s, hs⟩

/-- For every 32-bit `num` the `do` loop of `print_int` ends within 10
iterations, and the array is read and written inside `0 .. 11` only. -/
theorem print_int_buffer_bounds (fuel : Nat) (hf : 10 ≤ fuel) (n : Int) (junk : Int → Int)
    (h1 : -2147483648 ≤ n) (h2 : n ≤ 2147483647) :
    ∃ r : PrintInt, print_int_buffer fuel n junk = some r ∧
      (∀ x ∈ r.touched, 0 ≤ x ∧ x ≤ 11) ∧ 0 ≤ r.i ∧ r.i ≤ 11 ∧ r.buffer r.i = 0 := by
  by_cases hmin : n = -2147483648
  · subst hmin
    obtain ⟨f, rfl⟩ : ∃ f, fuel = f + 1 := ⟨fuel - 1, by omega⟩
    have h := print_int_buffer_int_min f junk
    obtain ⟨r, hr, he⟩ := Option.map_eq_some'.mp h
    simp only [Prod.mk.injEq] at he
    obtain ⟨_, e2, e3, e4⟩ := he
    refine ⟨r, hr, ?_, ?_, ?_, ?_⟩
    · intro x hx
      rw [e4] at hx
      simp only [List.mem_cons, List.mem_singleton, List.not_mem_nil, or_false] at hx
      omega
    · omega
    · omega
    · rw [e2, e3]
  · obtain ⟨r, r1, r2, _, r4, r5, r6⟩ := print_int_buffer_spec fuel hf n junk (by omega) h2
    refine ⟨r, r1, r6, by omega, by omega, ?_⟩
    rw [r2, r4]

/-! ## The dispatch of `execute_command` -/

theorem select_command_eq (cmd : List Int) :
    select_command cmd =
      if c_string cmd = str "clear" then Command.clear
      else if c_string cmd = str "help" then Command.help
      else if c_string cmd = str "reboot" then Command.reboot
      else if c_string cmd = str "percentages" then Command.percentages
      else Command.unknown := by
  have h1 : c_string (str "clear") = str "clear" := by decide
  have h2 : c_string (str "help") = str "help" := by decide
  have h3 : c_string (str "reboot") = str "reboot" := by decide
  have h4 : c_string (str "percentages") = str "percentages" := by decide
  simp only [select_command, strcmp_eq_zero_iff, h1, h2, h3, h4]

/-! ## The cell written by `put_char` -/

/-- For a character without the high bit (`0 .. 127`) the unit written is
the character in the low byte and the attribute `0x0F` in the high byte. -/
theorem vga_entry_ascii (c : Int) (h0 : 0 ≤ c) (h1 : c ≤ 127) :
    vga_entry c = 0x0F00 + c.toNat := by
  obtain ⟨n, rfl⟩ : ∃ n : Nat, c = (n : Int) := ⟨c.toNat, by omega⟩
  have hn : n < 2 ^ 8 := by norm_num; omega
  have hor := Nat.mul_add_lt_is_or hn 15
  have hc : to_uint16 (n : Int) = n := by
    unfold to_uint16
    omega
  have hs : WHITE_ON_BLACK <<< 8 = 2 ^ 8 * 15 := by decide
  unfold vga_entry
  rw [hc, hs, ← hor]
  simp only [Int.toNat_ofNat]
  omega

theorem put_char_written_cell (c : Int) (d : Display) :
    (put_char_written c d).vga_buffer (d.cursor_row * VGA_WIDTH + d.cursor_col) = vga_entry c ∧
    ∀ j : Int, j ≠ d.cursor_row * VGA_WIDTH + d.cursor_col →
      (put_char_written c d).vga_buffer j = d.vga_buffer j := by
  constructor
  · simp only [put_char_written, poke, if_true]
  · intro j hj
    simp only [put_char_written, poke, if_neg hj]

theorem put_char_no_scroll (c : Int) (d : Display) (hc : c ≠ 10) (hd : cursor_valid d)
    (hq : ¬ (d.cursor_row = 24 ∧ d.cursor_col = 79)) : put_char c d = put_char_written c d := by
  rw [put_char_eq_written c d hc, scroll_if_needed, if_neg]
  simp only [cursor_valid, VGA_HEIGHT, VGA_WIDTH] at hd
  simp only [put_char_written, VGA_HEIGHT, VGA_WIDTH]
  split_ifs <;> omega

/-! ## Lock-step of the cursor and the line buffer -/

theorem scancode_to_ascii_cases (sc : Nat) :
    scancode_to_ascii sc = 0 ∨ scancode_to_ascii sc = 8 ∨ scancode_to_ascii sc = 10 ∨
      is_printable (scancode_to_ascii sc) := by
  by_cases hs : 0x39 < sc
  · exact Or.inl (scancode_to_ascii_large sc hs)
  · have : sc < 58 := by omega
    interval_cases sc <;> decide

theorem input_backspace_index (d : Display) (hd : cursor_valid d) (hp : 0 < cursor_index d) :
    cursor_index (input_backspace d) = cursor_index d - 1 ∧
    ∀ j : Int, (input_backspace d).vga_buffer j =
      if j = cursor_index d - 1 then vga_entry 32 else d.vga_buffer j := by
  simp only [cursor_valid, cursor_index, VGA_HEIGHT, VGA_WIDTH] at hd hp ⊢
  by_cases h1 : d.cursor_col > 0
  · simp only [input_backspace, h1, if_true, poke, VGA_WIDTH]
    refine ⟨by omega, fun j => ?_⟩
    split_ifs <;> first | rfl | omega
  · have h2 : d.cursor_row > 0 := by omega
    simp only [input_backspace, h1, h2, if_true, if_false, poke, VGA_WIDTH]
    refine ⟨by omega, fun j => ?_⟩
    split_ifs <;> first | rfl | omega

theorem put_char_index (c : Int) (d : Display) (hc : c ≠ 10) (hd : cursor_valid d) :
    (cursor_index d < 1999 →
      cursor_index (put_char c d) = cursor_index d + 1 ∧
      ∀ j : Int, (put_char c d).vga_buffer j =
        if j = cursor_index d then vga_entry c else d.vga_buffer j) ∧
    (cursor_index d = 1999 →
      cursor_index (put_char c d) = 1920 ∧
      ∀ j : Int, 0 ≤ j → j < 1920 → (put_char c d).vga_buffer j =
        if j + 80 = 1999 then vga_entry c else d.vga_buffer (j + 80)) := by
  have hv := hd
  simp only [cursor_valid, VGA_HEIGHT, VGA_WIDTH] at hv
  constructor
  · intro hp
    simp only [cursor_index, VGA_WIDTH] at hp
    rw [put_char_no_scroll c d hc hd (by omega)]
    simp only [cursor_index, put_char_written, poke, VGA_WIDTH]
    refine ⟨?_, fun j => trivial⟩
    split_ifs <;> omega
  · intro hp
    simp only [cursor_index, VGA_WIDTH] at hp
    have hq : d.cursor_row = 24 ∧ d.cursor_col = 79 := by omega
    have hs : (put_char_written c d).cursor_row ≥ VGA_HEIGHT := by
      simp only [put_char_written, VGA_HEIGHT, VGA_WIDTH]
      split_ifs <;> omega
    rw [put_char_eq_written c d hc, scroll_if_needed, if_pos hs]
    refine ⟨by simp only [cursor_index, scroll_cursor_row, scroll_cursor_col, VGA_WIDTH]; rfl, ?_⟩
    intro j hj0 hj1
    rw [scroll_vga_buffer]
    simp only [put_char_written, poke, VGA_WIDTH, hq.1, hq.2]
    rw [if_neg (by omega), if_pos ⟨hj0, hj1⟩]
    split_ifs <;> first | rfl | omega

theorem lock_step_input_step (len : Int) (sc : Nat) (s : LineEditor) (hcap : len - 1 ≤ 1920)
    (hne : scancode_to_ascii sc ≠ 10) (h : lock_step s) : lock_step (input_step len sc s) := by
  obtain ⟨hv, h0, hp, hcells⟩ := h
  unfold input_step
  by_cases hrel : sc &&& 0x80 ≠ 0
  · rw [if_pos hrel]
    exact ⟨hv, h0, hp, hcells⟩
  rw [if_neg hrel]
  dsimp only
  by_cases hc0 : scancode_to_ascii sc = 0
  · rw [if_pos hc0]
    exact ⟨hv, h0, hp, hcells⟩
  rw [if_neg hc0]
  by_cases hc8 : scancode_to_ascii sc = 8
  · rw [if_pos hc8]
    by_cases hcount : s.count > 0
    · rw [if_pos hcount]
      obtain ⟨b1, b2⟩ := input_backspace_index s.display hv (by omega)
      refine ⟨cursor_valid_input_backspace _ hv, ?_, ?_, ?_⟩
      · show 0 ≤ s.count - 1
        omega
      · show s.count - 1 ≤ cursor_index (input_backspace s.display)
        omega
      · intro k hk0 hk1
        have hk1' : k < s.count - 1 := hk1
        obtain ⟨c1, c2⟩ := hcells k hk0 (by omega)
        refine ⟨c1, ?_⟩
        show (input_backspace s.display).vga_buffer
          (cursor_index (input_backspace s.display) - (s.count - 1) + k) = _
        rw [b1, b2, if_neg (by omega), ← c2]
        congr 1
        omega
    · rw [if_neg hcount]
      exact ⟨hv, h0, hp, hcells⟩
  rw [if_neg hc8, if_neg hne]
  by_cases hroom : s.count < len - 1
  · rw [if_pos hroom]
    have hpr : is_printable (scancode_to_ascii sc) := by
      rcases scancode_to_ascii_cases sc with h | h | h | h
      · exact absurd h hc0
      · exact absurd h hc8
      · exact absurd h hne
      · exact h
    obtain ⟨p1, p2⟩ := put_char_index (scancode_to_ascii sc) s.display hne hv
    have hvd := hv
    simp only [cursor_valid, VGA_HEIGHT, VGA_WIDTH] at hvd
    have hmax : cursor_index s.display ≤ 1999 := by
      simp only [cursor_index, VGA_WIDTH]
      omega
    refine ⟨cursor_valid_put_char _ _ hv, ?_, ?_, ?_⟩
    · show 0 ≤ s.count + 1
      omega
    · show s.count + 1 ≤ cursor_index (put_char (scancode_to_ascii sc) s.display)
      by_cases hlast : cursor_index s.display = 1999
      · rw [(p2 hlast).1]
        omega
      · rw [(p1 (by omega)).1]
        omega
    · intro k hk0 hk1
      have hk1' : k < s.count + 1 := hk1
      show is_printable ((s.store s.count (scancode_to_ascii sc)).destination k) ∧
        (put_char (scancode_to_ascii sc) s.display).vga_buffer
          (cursor_index (put_char (scancode_to_ascii sc) s.display) - (s.count + 1) + k) =
        vga_entry ((s.store s.count (scancode_to_ascii sc)).destination k)
      simp only [LineEditor.store]
      by_cases hlast : cursor_index s.display = 1999
      · obtain ⟨q1, q2⟩ := p2 hlast
        rw [q1, q2 _ (by omega) (by omega)]
        by_cases hk : k = s.count
        · rw [if_pos hk, if_pos (by omega)]
          exact ⟨hpr, rfl⟩
        · obtain ⟨c1, c2⟩ := hcells k hk0 (by omega)
          rw [if_neg hk, if_neg (by omega), ← c2]
          refine ⟨c1, ?_⟩
          congr 1
          omega
      · obtain ⟨q1, q2⟩ := p1 (by omega)
        rw [q1, q2]
        by_cases hk : k = s.count
        · rw [if_pos hk, if_pos (by omega)]
          exact ⟨hpr, rfl⟩
        · obtain ⟨c1, c2⟩ := hcells k hk0 (by omega)
          rw [if_neg hk, if_neg (by omega), ← c2]
          refine ⟨c1, ?_⟩
          congr 1
          omega
  · rw [if_neg hroom]
    exact ⟨hv, h0, hp, hcells⟩

theorem lock_step_input_steps (len : Int) (hcap : len - 1 ≤ 1920) : ∀ (ks : List Nat)
    (s : LineEditor), (∀ k ∈ ks, scancode_to_ascii k ≠ 10) → lock_step s →
    lock_step (input_steps len ks s) := by
  intro ks
  induction ks with
  | nil => intro s _ h; exact h
  | cons k r ih =>
    intro s hks h
    exact ih (input_step len k s) (fun x hx => hks x (List.mem_cons_of_mem k hx))
      (lock_step_input_step len k s hcap (hks k (List.mem_cons_self k r)) h)

theorem lock_step_input (len : Int) (keys : List Nat) (destination : Int → Int) (d : Display)
    (hcap : len - 1 ≤ 1920) (hd : cursor_valid d) (hkeys : 0x1C ∉ keys) :
    (input len keys destination d).1 =
      input_steps len keys
        { count := 0, destination := destination, stores := [], display := d,
          phase := Phase.collecting } ∧
    lock_step (input len keys destination d).1 := by
  have hne : ∀ k ∈ keys, scancode_to_ascii k ≠ 10 := by
    intro k hk h10
    exact hkeys ((scancode_to_ascii_newline k).mp h10 ▸ hk)
  have h1 := (input_loop_append len [] keys
    { count := 0, destination := destination, stores := [], display := d,
      phase := Phase.collecting } rfl hne).1
  rw [List.append_nil] at h1
  have e : (input len keys destination d).1 =
      input_steps len keys
        { count := 0, destination := destination, stores := [], display := d,
          phase := Phase.collecting } := by
    rw [input, h1, input_loop]
  refine ⟨e, ?_⟩
  rw [e]
  apply lock_step_input_steps len hcap keys _ hne
  have hv := hd
  simp only [cursor_valid, VGA_HEIGHT, VGA_WIDTH] at hv
  refine ⟨hd, le_refl 0, ?_, ?_⟩
  · show (0 : Int) ≤ cursor_index d
    simp only [cursor_index, VGA_WIDTH]
    omega
  · intro k hk0 hk1
    have : k < 0 := hk1
    omega


theorem input_collecting (len : Int) (keys : List Nat) (destination : Int → Int) (d : Display)
    (hkeys : 0x1C ∉ keys) : (input len keys destination d).1.phase = Phase.collecting := by
  have h := (input_loop_done_iff len keys
    { count := 0, destination := destination, stores := [], display := d,
      phase := Phase.collecting } rfl).not.mpr hkeys
  cases hq : (input len keys destination d).1.phase with
  | collecting => rfl
  | done => exact absurd hq h

/-! ## Lines of text on the screen -/

theorem clear_screen_vga_buffer (d : Display) :
    (clear_screen d).vga_buffer =
      fun i => if 0 ≤ i ∧ i < 2000 then blank else d.vga_buffer i := by
  have hb : (fun (i : Int) (e : Display) => poke e i blank) =
      (fun col e => poke e (0 + col) blank) := by
    funext i e
    rw [zero_add]
  have hn : (VGA_WIDTH * VGA_HEIGHT - 0).toNat = 2000 := by decide
  funext i
  simp only [clear_screen, for_loop, hn, hb, for_up_fill]
  push_cast
  split_ifs <;> rfl

theorem print_string_eq_put_chars : ∀ (cs : List Int) (d : Display), (∀ c ∈ cs, c ≠ 0) →
    print_string cs d = put_chars cs d := by
  intro cs
  induction cs with
  | nil => intro d _; rfl
  | cons c r ih =>
    intro d h
    rw [print_string, if_neg (h c (List.mem_cons_self c r)),
      ih _ (fun x hx => h x (List.mem_cons_of_mem c hx))]
    rfl

theorem put_chars_append (a b : List Int) (d : Display) :
    put_chars (a ++ b) d = put_chars b (put_chars a d) := by
  simp only [put_chars, List.foldl_append]

theorem line_cell_neg (text : List Int) (k : Int) (o : Nat) (h : k < 0) :
    line_cell text k o = o := by
  rw [line_cell, if_neg (by omega)]

theorem line_cell_beyond (text : List Int) (k : Int) (o : Nat) (h : (text.length : Int) ≤ k) :
    line_cell text k o = o := by
  by_cases h0 : 0 ≤ k
  · have hn : text[k.toNat]? = none := List.getElem?_eq_none (by omega)
    rw [line_cell, if_pos h0, hn]
  · exact line_cell_neg text k o (by omega)

theorem line_cell_cons (c : Int) (cs : List Int) (k : Int) (o : Nat) :
    line_cell (c :: cs) k o = if k = 0 then vga_entry c else line_cell cs (k - 1) o := by
  by_cases h0 : k = 0
  · subst h0
    simp [line_cell]
  · rw [if_neg h0]
    by_cases hk : 0 ≤ k
    · have e : k.toNat = (k - 1).toNat + 1 := by omega
      rw [line_cell, line_cell, if_pos hk, if_pos (by omega), e, List.getElem?_cons_succ]
    · rw [line_cell_neg _ _ _ (by omega), line_cell_neg _ _ _ (by omega)]

theorem put_chars_line (cs : List Int) : ∀ d : Display, cursor_valid d →
    (∀ c ∈ cs, c ≠ 10) → d.cursor_col + (cs.length : Int) < 80 →
    (put_chars cs d).cursor_row = d.cursor_row ∧
    (put_chars cs d).cursor_col = d.cursor_col + (cs.length : Int) ∧
    ∀ i : Int, (put_chars cs d).vga_buffer i =
      line_cell cs (i - cursor_index d) (d.vga_buffer i) := by
  induction cs with
  | nil =>
    intro d _ _ _
    refine ⟨rfl, by simp [put_chars], fun i => ?_⟩
    simp [line_cell, put_chars]
  | cons c r ih =>
    intro d hd hcs hlen
    have hc := hcs c (List.mem_cons_self c r)
    have hv := hd
    simp only [cursor_valid, VGA_HEIGHT, VGA_WIDTH] at hv
    rw [List.length_cons] at hlen
    push_cast at hlen
    have e : put_char c d = put_char_written c d := put_char_no_scroll c d hc hd (by omega)
    have hrow : (put_char c d).cursor_row = d.cursor_row := by
      rw [e]
      simp only [put_char_written, VGA_WIDTH]
      rw [if_neg (by omega)]
    have hcol : (put_char c d).cursor_col = d.cursor_col + 1 := by
      rw [e]
      simp only [put_char_written, VGA_WIDTH]
      rw [if_neg (by omega)]
    have hidx : cursor_index (put_char c d) = cursor_index d + 1 := by
      simp only [cursor_index, hrow, hcol]
      omega
    obtain ⟨i1, i2, i3⟩ := ih (put_char c d) (cursor_valid_put_char c d hd)
      (fun x hx => hcs x (List.mem_cons_of_mem c hx)) (by rw [hcol]; omega)
    have ep : put_chars (c :: r) d = put_chars r (put_char c d) := rfl
    rw [ep]
    refine ⟨i1.trans hrow, ?_, ?_⟩
    · rw [i2, hcol, List.length_cons]
      push_cast
      omega
    · intro i
      rw [i3 i, hidx, line_cell_cons, e]
      by_cases hi : i = cursor_index d
      · subst hi
        rw [if_pos (by omega), line_cell_neg _ _ _ (by omega)]
        exact (put_char_written_cell c d).1
      · rw [if_neg (by omega), (put_char_written_cell c d).2 i hi]
        congr 1
        omega

/-! ## The screen after `clear` and `help` -/

theorem put_char_newline_no_scroll (d : Display) (h : d.cursor_row + 1 < 25) :
    put_char 10 d = { d with cursor_row := d.cursor_row + 1, cursor_col := 0 } := by
  rw [put_char, if_pos rfl, scroll_if_needed, if_neg]
  simp only [VGA_HEIGHT]
  omega

theorem text_screen_append_lt (rows : List (List Int)) (text : List Int) (r c : Int)
    (h : r < (rows.length : Int)) :
    text_screen (rows ++ [text]) r c = text_screen rows r c := by
  unfold text_screen
  by_cases h0 : 0 ≤ r
  · rw [if_pos h0, if_pos h0, List.getElem?_append_left (by omega)]
  · rw [if_neg h0, if_neg h0]

theorem text_screen_append_eq (rows : List (List Int)) (text : List Int) (c : Int) :
    text_screen (rows ++ [text]) (rows.length : Int) c = line_cell text c blank := by
  unfold text_screen
  rw [if_pos (by omega), Int.toNat_ofNat, List.getElem?_append_right (le_refl _)]
  simp

theorem text_screen_beyond (rows : List (List Int)) (r c : Int)
    (h : (rows.length : Int) ≤ r) : text_screen rows r c = blank := by
  unfold text_screen
  rw [if_pos (by omega), List.getElem?_eq_none (by omega)]

/-- Printing one more line of text (shorter than a row) and a newline,
below the rows that the screen shows, gives the screen that shows one more
row. -/
theorem shows_rows_newline (rows : List (List Int)) (text : List Int) (d : Display)
    (h : shows_rows rows d) (hrows : rows.length < 24) (hlen : text.length < 80)
    (hne : ∀ c ∈ text, c ≠ 10) :
    shows_rows (rows ++ [text]) (put_char 10 (put_chars text d)) := by
  obtain ⟨hr, hc, hcells⟩ := h
  have hv : cursor_valid d := by
    simp only [cursor_valid, VGA_HEIGHT, VGA_WIDTH, hr, hc]
    omega
  obtain ⟨p1, p2, p3⟩ := put_chars_line text d hv hne (by rw [hc]; omega)
  have hidx : cursor_index d = (rows.length : Int) * 80 := by
    simp only [cursor_index, VGA_WIDTH, hr, hc]
    omega
  rw [put_char_newline_no_scroll _ (by rw [p1, hr]; omega)]
  refine ⟨?_, rfl, ?_⟩
  · show (put_chars text d).cursor_row + 1 = _
    rw [p1, hr, List.length_append, List.length_singleton]
    push_cast
    rfl
  · intro r c hr0 hr1 hc0 hc1
    simp only [VGA_HEIGHT, VGA_WIDTH] at hr1 hc1 ⊢
    show (put_chars text d).vga_buffer (r * 80 + c) = _
    have hd := hcells r c hr0 hr1 hc0 hc1
    simp only [VGA_WIDTH] at hd
    rw [p3, hidx, hd]
    rcases lt_trichotomy r (rows.length : Int) with hlt | heq | hgt
    · rw [line_cell_neg _ _ _ (by omega), text_screen_append_lt _ _ _ _ hlt]
    · subst heq
      rw [text_screen_append_eq, text_screen_beyond _ _ _ (le_refl _)]
      congr 1
      omega
    · rw [line_cell_beyond _ _ _ (by omega), text_screen_beyond _ _ _ (by omega),
        text_screen_beyond]
      rw [List.length_append, List.length_singleton]
      push_cast
      omega

theorem print_string_line (text : List Int) (d : Display) (h : ∀ c ∈ text, c ≠ 0) :
    print_string (text ++ [10]) d = put_char 10 (put_chars text d) := by
  rw [print_string_eq_put_chars, put_chars_append]
  · rfl
  · intro c hc
    rcases List.mem_append.mp hc with h1 | h1
    · exact h c h1
    · rw [List.mem_singleton.mp h1]
      decide

theorem shows_rows_clear_screen (d : Display) : shows_rows [] (clear_screen d) := by
  refine ⟨rfl, rfl, ?_⟩
  intro r c hr0 hr1 hc0 hc1
  simp only [VGA_HEIGHT, VGA_WIDTH] at hr1 hc1 ⊢
  rw [clear_screen_vga_buffer, text_screen_beyond _ _ _ (by simpa using hr0)]
  dsimp only
  rw [if_pos (by omega)]

/-- The `help` branch of `execute_command`, run below `rows`, shows an empty
row and the four lines of the help text below them. -/
theorem shows_rows_help_command (rows : List (List Int)) (w : Console)
    (h : shows_rows rows w.display) (hrows : rows.length < 19) :
    (help_command w).keys = w.keys ∧
    shows_rows (rows ++ [[], str "Available commands:", str "  clear - Clears the screen",
      str "  reboot - Reboots the system", str "  percentages - run the percentages program"])
      (help_command w).display := by
  have h0 : shows_rows (rows ++ [[]]) (put_char 10 w.display) :=
    shows_rows_newline rows [] w.display h (by omega) (by decide) (by decide)
  have h1 := shows_rows_newline _ (str "Available commands:") _ h0
    (by rw [List.length_append, List.length_singleton]; omega) (by decide) (by decide)
  have h2 := shows_rows_newline _ (str "  clear - Clears the screen") _ h1
    (by simp only [List.length_append, List.length_singleton]; omega) (by decide) (by decide)
  have h3 := shows_rows_newline _ (str "  reboot - Reboots the system") _ h2
    (by simp only [List.length_append, List.length_singleton]; omega) (by decide) (by decide)
  have h4 := shows_rows_newline _ (str "  percentages - run the percentages program") _ h3
    (by simp only [List.length_append, List.length_singleton]; omega) (by decide) (by decide)
  have e1 : print_string (10 :: str "Available commands:" ++ [10]) w.display =
      put_char 10 (put_chars (str "Available commands:") (put_char 10 w.display)) := by
    rw [List.cons_append, print_string, if_neg (by decide), print_string_line _ _ (by decide)]
  refine ⟨by simp only [help_command, Console.print], ?_⟩
  simp only [help_command, Console.print]
  rw [e1, print_string_line _ _ (by decide), print_string_line _ _ (by decide),
    print_string_line _ _ (by decide)]
  simpa only [List.append_assoc, List.singleton_append, List.cons_append, List.nil_append]
    using h4

theorem c_string_of_ne_nul : ∀ s : List Int, (∀ c ∈ s, c ≠ 0) → c_string s = s := by
  intro s
  induction s with
  | nil => intro _; rfl
  | cons c r ih =>
    intro h
    rw [c_string, if_neg (h c (List.mem_cons_self c r)),
      ih (fun x hx => h x (List.mem_cons_of_mem c hx))]

theorem execute_command_congr (m : Machine) (cmd1 cmd2 : List Int) (w : Console)
    (h : c_string cmd1 = c_string cmd2) : execute_command m cmd1 w = execute_command m cmd2 w := by
  unfold execute_command
  rw [select_command_eq cmd1, select_command_eq cmd2, h]

/-- One iteration of the loop of `kernel_main` on a line of fewer than 149
printable keys and Enter: the prompt is printed, the keys are echoed, the
newline is printed, and `execute_command` gets the typed text. -/
theorem prompt_iteration_line (m : Machine) (d : Display) (ks rest : List Nat)
    (hks : ∀ k ∈ ks, printable_key k) (hlen : ks.length < 149) :
    prompt_iteration m { display := d, keys := ks ++ 0x1C :: rest } =
      execute_command m (ks.map scancode_to_ascii)
        { display := put_char 10 (put_chars (ks.map scancode_to_ascii)
            (print_string (str "[gardOS] $ ") d)),
          keys := rest } := by
  obtain ⟨r1, r2, _, r4, r5, r6⟩ := input_printable_enter 150 ks rest m.junk
    (print_string (str "[gardOS] $ ") d) hks
  have ha : accepted_keys 150 0 ks = ks := by
    unfold accepted_keys
    apply List.take_of_length_le
    omega
  rw [ha] at r4 r5 r6
  have hne : ∀ c ∈ ks.map scancode_to_ascii, c ≠ 0 := by
    intro c hc
    obtain ⟨k, hk, rfl⟩ := List.mem_map.mp hc
    exact (printable_key_char k (hks k hk)).1
  have hcs : c_string (buffer_chars
      (input 150 (ks ++ 0x1C :: rest) m.junk (print_string (str "[gardOS] $ ") d)).1.destination
      151) = c_string (ks.map scancode_to_ascii) := by
    rw [c_string_of_ne_nul _ hne]
    apply c_string_array _ ks.length 151 _ (by omega) _ r5 hne
    rw [r4]
  unfold prompt_iteration with_input Console.print
  dsimp only
  rw [if_pos r2, r1, r6]
  exact execute_command_congr m _ _ _ hcs

theorem execute_command_clear (m : Machine) (w : Console) :
    execute_command m (keys_clear.map scancode_to_ascii) w =
      Outcome.returned { w with display := clear_screen w.display } := by
  have h : select_command (keys_clear.map scancode_to_ascii) = Command.clear := by decide
  rw [execute_command, h]

theorem execute_command_help (m : Machine) (w : Console) :
    execute_command m (keys_help.map scancode_to_ascii) w =
      Outcome.returned (help_command w) := by
  have h : select_command (keys_help.map scancode_to_ascii) = Command.help := by decide
  rw [execute_command, h]

/-- The two iterations of the loop of `kernel_main` that read `clear`,
Enter, `help`, Enter, from any display: they return, with all those keys
read, showing `help_rows` and nothing else. -/
theorem prompt_loop_clear_help (m : Machine) (d0 : Display) (rest : List Nat) :
    ∃ w : Console,
      prompt_loop m 2
        { display := d0, keys := keys_clear ++ 0x1C :: (keys_help ++ 0x1C :: rest) } =
        Outcome.returned w ∧
      w.keys = rest ∧ shows_rows help_rows w.display := by
  have i1 := prompt_iteration_line m d0 keys_clear (keys_help ++ 0x1C :: rest) (by decide)
    (by decide)
  rw [execute_command_clear] at i1
  have i2 := prompt_iteration_line m
    (clear_screen (put_char 10 (put_chars (keys_clear.map scancode_to_ascii)
      (print_string (str "[gardOS] $ ") d0)))) keys_help rest (by decide) (by decide)
  rw [execute_command_help] at i2
  have hs0 := shows_rows_clear_screen (put_char 10 (put_chars (keys_clear.map scancode_to_ascii)
      (print_string (str "[gardOS] $ ") d0)))
  have hs1 := shows_rows_newline [] (str "[gardOS] $ " ++ keys_help.map scancode_to_ascii) _ hs0
    (by decide) (by decide) (by decide)
  rw [put_chars_append, ← print_string_eq_put_chars (str "[gardOS] $ ") _ (by decide)] at hs1
  have hrow : ([] : List (List Int)) ++ [str "[gardOS] $ " ++ keys_help.map scancode_to_ascii] =
      [str "[gardOS] $ help"] := by decide
  rw [hrow] at hs1
  generalize put_char 10 (put_chars (keys_help.map scancode_to_ascii)
    (print_string (str "[gardOS] $ ")
      (clear_screen (put_char 10 (put_chars (keys_clear.map scancode_to_ascii)
        (print_string (str "[gardOS] $ ") d0)))))) = X at hs1 i2
  obtain ⟨k1, k2⟩ := shows_rows_help_command [str "[gardOS] $ help"]
    { display := X, keys := rest } hs1 (by decide)
  refine ⟨help_command { display := X, keys := rest }, ?_, k1, k2⟩
  rw [prompt_loop, i1]
  dsimp only
  rw [prompt_loop, i2]
  rfl

/-! ## The claims -/

/-- C1: cursor validity is an invariant of the display surface. From a
display whose cursor satisfies `0 ≤ row < 25` and `0 ≤ column < 80`, the
states after `clear_screen`, `scroll`, `put_char c`, `print_string s` and the
backspace step of `input` (and after every whole iteration of the loop of
`input`) again have a cursor inside the grid, for every character `c` and
every string `s`. -/
theorem C1_cursor_validity (d : Display) (c : Int) (s : List Int)
    (h : 0 ≤ d.cursor_row ∧ d.cursor_row < 25 ∧ 0 ≤ d.cursor_col ∧ d.cursor_col < 80) :
    cursor_valid (clear_screen d) ∧ cursor_valid (scroll d) ∧ cursor_valid (put_char c d) ∧
      cursor_valid (print_string s d) ∧ cursor_valid (input_backspace d) ∧
      ∀ (len : Int) (sc : Nat) (e : LineEditor), e.display = d →
        cursor_valid (input_step len sc e).display :=
  ⟨cursor_valid_clear_screen d, cursor_valid_scroll d, cursor_valid_put_char c d h,
    cursor_valid_print_string s d h, cursor_valid_input_backspace d h,
    fun len sc e he => cursor_valid_input_step len sc e (he ▸ h)⟩

/-- Instance of C1 at the bottom right corner of the grid, where a printed
character wraps the row and scrolls the screen. -/
theorem C1_cursor_validity_witness :
    ((0 : Int) ≤ numbered_display.cursor_row ∧ numbered_display.cursor_row < 25 ∧
      0 ≤ numbered_display.cursor_col ∧ numbered_display.cursor_col < 80) ∧
    cursor_valid (put_char 65 numbered_display) ∧
    cursor_valid (print_string [104, 105, 10] numbered_display) ∧
    cursor_valid (input_backspace numbered_display) :=
  have h : (0 : Int) ≤ numbered_display.cursor_row ∧ numbered_display.cursor_row < 25 ∧
      0 ≤ numbered_display.cursor_col ∧ numbered_display.cursor_col < 80 := by decide
  have t := C1_cursor_validity numbered_display 65 [104, 105, 10] h
  ⟨h, t.2.2.1, t.2.2.2.1, t.2.2.2.2.1⟩

/-- C2: for every capacity `len` and every sequence `ks` of `k < len - 1`
presses of printable keys followed by Enter (`0x1C`), `input(len, buf)`
returns, with `buf[0..k-1]` equal to the `k` translated characters in order
and `buf[k] = 0`; the final display is the initial one after `put_char` on
each of the `k` characters in order and then `put_char` on newline (this
holds from every starting cursor and grid). -/
theorem C2_read_line (len : Int) (ks : List Nat) (destination : Int → Int) (d : Display)
    (hks : ∀ k ∈ ks, printable_key k) (hlen : (ks.length : Int) < len - 1) :
    (input len (ks ++ [0x1C]) destination d).1.phase = Phase.done ∧
    (input len (ks ++ [0x1C]) destination d).2 = [] ∧
    buffer_chars (input len (ks ++ [0x1C]) destination d).1.destination ks.length =
      ks.map scancode_to_ascii ∧
    (input len (ks ++ [0x1C]) destination d).1.destination (ks.length : Int) = 0 ∧
    (input len (ks ++ [0x1C]) destination d).1.display =
      put_char 10 (put_chars (ks.map scancode_to_ascii) d) := by
  have ha : accepted_keys len 0 ks = ks := by
    unfold accepted_keys
    apply List.take_of_length_le
    omega
  obtain ⟨r1, r2, _, r4, r5, r6⟩ := input_printable_enter len ks [] destination d hks
  rw [ha] at r4 r5 r6
  exact ⟨r2, r1, r4, r5, r6⟩

/-- Instance of C2: the keys `h`, `i`, Enter typed into a buffer of capacity
5 at the bottom right corner of the screen. -/
theorem C2_read_line_witness :
    (∀ k ∈ [0x23, 0x17], printable_key k) ∧ (([0x23, 0x17] : List Nat).length : Int) < 5 - 1 ∧
    buffer_chars (input 5 ([0x23, 0x17] ++ [0x1C]) (fun _ => 7) (blank_display 24 79)).1.destination
      2 = [104, 105] ∧
    (input 5 ([0x23, 0x17] ++ [0x1C]) (fun _ => 7) (blank_display 24 79)).1.destination 2 = 0 :=
  have t := C2_read_line 5 [0x23, 0x17] (fun _ => 7) (blank_display 24 79) (by decide) (by decide)
  ⟨by decide, by decide, t.2.2.1, t.2.2.2.1⟩

/-- C3: overflow truncation. For every capacity `len ≥ 1` and every sequence
`ks` of `n ≥ len` presses of printable keys followed by Enter, `input`
returns a string of exactly `len - 1` characters: the buffer holds the first
`len - 1` typed characters (none of them NUL) followed by the terminator.
The excess keys produce no echo: the final display is the initial one after
`put_char` on the first `len - 1` characters and then on newline. -/
theorem C3_overflow_truncation (len : Int) (ks : List Nat) (destination : Int → Int)
    (d : Display) (hks : ∀ k ∈ ks, printable_key k) (hlen : 1 ≤ len)
    (hn : len ≤ (ks.length : Int)) :
    (input len (ks ++ [0x1C]) destination d).1.phase = Phase.done ∧
    (input len (ks ++ [0x1C]) destination d).1.count = len - 1 ∧
    buffer_chars (input len (ks ++ [0x1C]) destination d).1.destination (len - 1).toNat =
      (ks.take (len - 1).toNat).map scancode_to_ascii ∧
    (((ks.take (len - 1).toNat).map scancode_to_ascii).length : Int) = len - 1 ∧
    (∀ c ∈ (ks.take (len - 1).toNat).map scancode_to_ascii, c ≠ 0) ∧
    (input len (ks ++ [0x1C]) destination d).1.destination (len - 1) = 0 ∧
    (input len (ks ++ [0x1C]) destination d).1.display =
      put_char 10 (put_chars ((ks.take (len - 1).toNat).map scancode_to_ascii) d) := by
  have ha : accepted_keys len 0 ks = ks.take (len - 1).toNat := by
    unfold accepted_keys
    rw [sub_zero]
  have hl : (ks.take (len - 1).toNat).length = (len - 1).toNat := by
    rw [List.length_take]
    omega
  have hc : (((len - 1).toNat : Nat) : Int) = len - 1 := by omega
  obtain ⟨_, r2, r3, r4, r5, r6⟩ := input_printable_enter len ks [] destination d hks
  rw [ha] at r3 r4 r5 r6
  rw [hl] at r3 r4 r5
  rw [hc] at r3 r5
  refine ⟨r2, r3, r4, ?_, ?_, r5, r6⟩
  · rw [List.length_map, hl, hc]
  · intro c hcm
    obtain ⟨k, hk, rfl⟩ := List.mem_map.mp hcm
    exact (printable_key_char k (hks k (List.mem_of_mem_take hk))).1

/-- Instance of C3: five keys `a s d f g` and Enter typed into a buffer of
capacity 3; the line is `as`. -/
theorem C3_overflow_truncation_witness :
    (∀ k ∈ [0x1E, 0x1F, 0x20, 0x21, 0x22], printable_key k) ∧ (1 : Int) ≤ 3 ∧
    (3 : Int) ≤ (([0x1E, 0x1F, 0x20, 0x21, 0x22] : List Nat).length : Int) ∧
    buffer_chars (input 3 ([0x1E, 0x1F, 0x20, 0x21, 0x22] ++ [0x1C]) (fun _ => 7)
      (blank_display 0 0)).1.destination 2 = [97, 115] ∧
    (input 3 ([0x1E, 0x1F, 0x20, 0x21, 0x22] ++ [0x1C]) (fun _ => 7)
      (blank_display 0 0)).1.destination 2 = 0 ∧
    (input 3 ([0x1E, 0x1F, 0x20, 0x21, 0x22] ++ [0x1C]) (fun _ => 7)
      (blank_display 0 0)).1.display = put_char 10 (put_chars [97, 115] (blank_display 0 0)) :=
  have t := C3_overflow_truncation 3 [0x1E, 0x1F, 0x20, 0x21, 0x22] (fun _ => 7)
    (blank_display 0 0) (by decide) (by decide) (by decide)
  ⟨by decide, by decide, by decide, t.2.2.1, t.2.2.2.2.2.1, t.2.2.2.2.2.2⟩

/-- C4: no buffer overflow in the line editor. For every capacity `len ≥ 1`
and every sequence of key events (any raw codes, in any order), the run of
`input` on it, and so on each of its prefixes (the state at each moment of
the run), has its count in `0 .. len - 1` and has stored into `destination`
(data characters and the terminator) only at indices in `0 .. len - 1`; and
when `input` has returned, `destination[count] = 0`. -/
theorem C4_no_buffer_overflow (len : Int) (keys : List Nat) (destination : Int → Int)
    (d : Display) (hlen : 1 ≤ len) :
    (∀ n : Nat,
      0 ≤ (input len (keys.take n) destination d).1.count ∧
      (input len (keys.take n) destination d).1.count ≤ len - 1 ∧
      ∀ i ∈ (input len (keys.take n) destination d).1.stores, 0 ≤ i ∧ i ≤ len - 1) ∧
    0 ≤ (input len keys destination d).1.count ∧
    (input len keys destination d).1.count ≤ len - 1 ∧
    (∀ i ∈ (input len keys destination d).1.stores, 0 ≤ i ∧ i ≤ len - 1) ∧
    ((input len keys destination d).1.phase = Phase.done →
      (input len keys destination d).1.destination (input len keys destination d).1.count = 0) := by
  have h0 : editor_bounds len
      { count := 0, destination := destination, stores := [], display := d,
        phase := Phase.collecting } := by
    refine ⟨le_refl 0, ?_, ?_⟩
    · show (0 : Int) ≤ len - 1
      omega
    · intro i hi
      exact absurd hi (List.not_mem_nil i)
  obtain ⟨⟨b1, b2, b3⟩, b4⟩ := input_loop_bounds len keys _ h0 rfl
  exact ⟨fun n => (input_loop_bounds len (keys.take n) _ h0 rfl).1, b1, b2, b3, b4⟩

/-- Instance of C4: capacity 2 and the keys `a`, `s`, backspace, backspace,
backspace, `d`, `f`, Enter; the line is `d`, stored at index 0, with the
terminator at index 1. -/
theorem C4_no_buffer_overflow_witness :
    (1 : Int) ≤ 2 ∧
    (input 2 [0x1E, 0x1F, 0x0E, 0x0E, 0x0E, 0x20, 0x21, 0x1C] (fun _ => 7)
      (blank_display 0 0)).1.count ≤ 2 - 1 ∧
    (input 2 [0x1E, 0x1F, 0x0E, 0x0E, 0x0E, 0x20, 0x21, 0x1C] (fun _ => 7)
      (blank_display 0 0)).1.stores = [1, 0, 0] ∧
    (input 2 [0x1E, 0x1F, 0x0E, 0x0E, 0x0E, 0x20, 0x21, 0x1C] (fun _ => 7)
      (blank_display 0 0)).1.destination 1 = 0 :=
  have t := C4_no_buffer_overflow 2 [0x1E, 0x1F, 0x0E, 0x0E, 0x0E, 0x20, 0x21, 0x1C]
    (fun _ => 7) (blank_display 0 0) (by decide)
  ⟨by decide, t.2.2.1, by decide, t.2.2.2.2 (by decide)⟩

/-- C5: the backspace property. For every capacity `len ≥ 2`, every valid
starting cursor, every grid and every printable key `X`, the keys `X`,
Backspace (`0x0E`), Enter make `input` return an empty line (`buf[0] = 0`,
count `0`). The echo of `X` writes its glyph into a cell (`echo_cell`: the
cell under the starting cursor, or the one above it when the echo wrapped
at the bottom right corner and scrolled); after the backspace that cell
holds the blank glyph `0x0F20`; and on return both the cell under the
starting cursor and the cell that held the glyph of `X` (moved up one row
when the newline scrolled) hold the blank glyph. -/
theorem C5_backspace (len : Int) (X : Nat) (destination : Int → Int) (d : Display)
    (hlen : 2 ≤ len) (hd : cursor_valid d) (hX : printable_key X) :
    (input len [X, 0x0E, 0x1C] destination d).1.phase = Phase.done ∧
    (input len [X, 0x0E, 0x1C] destination d).1.count = 0 ∧
    (input len [X, 0x0E, 0x1C] destination d).1.destination 0 = 0 ∧
    (input len [X] destination d).1.display.vga_buffer (echo_cell d) =
      vga_entry (scancode_to_ascii X) ∧
    (input len [X, 0x0E] destination d).1.display.vga_buffer (echo_cell d) = 0x0F20 ∧
    (input len [X, 0x0E, 0x1C] destination d).1.display.vga_buffer
      (d.cursor_row * VGA_WIDTH + d.cursor_col) = 0x0F20 ∧
    (input len [X, 0x0E, 0x1C] destination d).1.display.vga_buffer
      (echo_cell_at_return d) = 0x0F20 := by
  obtain ⟨c0, c8, c10⟩ := printable_key_char X hX
  have hne : ∀ k ∈ [X, 0x0E], scancode_to_ascii k ≠ 10 := by
    intro k hk
    simp only [List.mem_cons, List.mem_singleton, List.not_mem_nil, or_false] at hk
    rcases hk with rfl | rfl
    · exact c10
    · decide
  have hsteps := input_steps_key_backspace len X destination d hlen hX
  have e3 : input len [X, 0x0E, 0x1C] destination d =
      (input_step len 0x1C (input_steps len [X, 0x0E]
        { count := 0, destination := destination, stores := [], display := d,
          phase := Phase.collecting }), []) := by
    have h := (input_loop_append len [0x1C] [X, 0x0E]
      { count := 0, destination := destination, stores := [], display := d,
        phase := Phase.collecting } rfl hne).1
    rw [input]
    exact h.trans (by rw [input_loop, input_step_enter, if_pos rfl])
  have e2 : input len [X, 0x0E] destination d =
      (input_steps len [X, 0x0E]
        { count := 0, destination := destination, stores := [], display := d,
          phase := Phase.collecting }, []) := by
    have h := (input_loop_append len [] [X, 0x0E]
      { count := 0, destination := destination, stores := [], display := d,
        phase := Phase.collecting } rfl hne).1
    rw [input]
    exact h
  have e1 : (input len [X] destination d).1.display = put_char (scancode_to_ascii X) d := by
    have h := (input_steps_printable len [X]
      { count := 0, destination := destination, stores := [], display := d,
        phase := Phase.collecting } (by simpa using hX)).2.1
    have ha : accepted_keys len 0 [X] = [X] := by
      unfold accepted_keys
      apply List.take_of_length_le
      simp only [List.length_singleton]
      omega
    have hl := (input_loop_append len [] [X]
      { count := 0, destination := destination, stores := [], display := d,
        phase := Phase.collecting } rfl (by simpa using c10)).1
    rw [input]
    rw [List.append_nil] at hl
    rw [hl, input_loop, h, ha]
    rfl
  obtain ⟨n1, n2⟩ := newline_after_backspace (scancode_to_ascii X) d c10 hd
  obtain ⟨_, _, b3, _⟩ := backspace_after_put_char (scancode_to_ascii X) d c10 hd
  rw [e3, e2, e1, hsteps, input_step_enter]
  simp only [LineEditor.store, if_true, VGA_WIDTH]
  exact ⟨trivial, trivial, trivial, put_char_echo_cell _ d c10 hd, b3.trans blank_eq,
    n1.trans blank_eq, n2.trans blank_eq⟩

/-- Instance of C5 at the bottom right corner, where the echo of `a` wraps
the row and scrolls the screen: the line is empty, and both cell `(23, 79)`,
where the glyph went, and cell `(24, 79)`, where it was written, are blank. -/
theorem C5_backspace_witness :
    (2 : Int) ≤ 150 ∧ cursor_valid (blank_display 24 79) ∧ printable_key 0x1E ∧
    echo_cell (blank_display 24 79) = 23 * 80 + 79 ∧
    (input 150 [0x1E, 0x0E, 0x1C] (fun _ => 7) (blank_display 24 79)).1.destination 0 = 0 ∧
    (input 150 [0x1E, 0x0E] (fun _ => 7) (blank_display 24 79)).1.display.vga_buffer
      (echo_cell (blank_display 24 79)) = 0x0F20 ∧
    (input 150 [0x1E, 0x0E, 0x1C] (fun _ => 7) (blank_display 24 79)).1.display.vga_buffer
      ((blank_display 24 79).cursor_row * VGA_WIDTH + (blank_display 24 79).cursor_col) =
        0x0F20 :=
  have t := C5_backspace 150 0x1E (fun _ => 7) (blank_display 24 79) (by decide) (by decide)
    (by decide)
  ⟨by decide, by decide, by decide, by decide, t.2.2.1, t.2.2.2.2.1, t.2.2.2.2.2.1⟩

/-- C6: ignored key events are no-ops. In every line-editor state (count,
buffer, cursor, grid), one key event whose raw code has the release bit
`0x80` set, or whose raw code translates to "no character" (`0`), or that is
Backspace (`0x0E`) while the count is `0`, leaves the whole state unchanged;
so a raw code with the release bit set never produces a character in the
input path. -/
theorem C6_ignored_keys (len : Int) (sc : Nat) (s : LineEditor)
    (h : sc &&& 0x80 ≠ 0 ∨ scancode_to_ascii sc = 0 ∨ (sc = 0x0E ∧ s.count = 0)) :
    input_step len sc s = s := by
  rcases h with h | h | ⟨h, hc⟩
  · rw [input_step, if_pos h]
  · unfold input_step
    dsimp only
    rw [if_pos h]
    split <;> rfl
  · rw [h, input_step_backspace, if_neg (by omega)]

/-- Instance of C6: the release code `0x9E` of the key `a`. -/
theorem C6_ignored_keys_witness :
    (0x9E &&& 0x80 ≠ 0 ∨ scancode_to_ascii 0x9E = 0 ∨ (0x9E = 0x0E ∧ (3 : Int) = 0)) ∧
    input_step 10 0x9E
        { count := 3, destination := fun _ => 7, stores := [], display := blank_display 2 3,
          phase := Phase.collecting } =
      { count := 3, destination := fun _ => 7, stores := [], display := blank_display 2 3,
        phase := Phase.collecting } :=
  ⟨by decide, C6_ignored_keys 10 0x9E _ (by decide)⟩

/-- C7: from a valid cursor `(row0, col0)`, after `put_char` on each of `n`
characters none of which is newline, the final column of the cursor is
`(col0 + n) mod 80`, whether or not wraps and scrolls occurred on the way. -/
theorem C7_final_column (d : Display) (cs : List Int) (h : cursor_valid d)
    (hcs : ∀ c ∈ cs, c ≠ 10) :
    (put_chars cs d).cursor_col = (d.cursor_col + cs.length) % 80 :=
  (put_chars_cursor cs d h hcs).2.1

/-- Instance of C7: three characters printed from column 78 of the bottom
row leave the cursor in column 1. -/
theorem C7_final_column_witness :
    cursor_valid (blank_display 24 78) ∧ (∀ c ∈ [97, 98, 99], c ≠ (10 : Int)) ∧
    (put_chars [97, 98, 99] (blank_display 24 78)).cursor_col = 1 :=
  ⟨by decide, by decide,
    C7_final_column (blank_display 24 78) [97, 98, 99] (by decide) (by decide)⟩

/-- C8 as stated fails: from the valid cursor `(0, 79)` one character other
than newline wraps the row, so the final row is `1`; it is neither
`row0 + (count div 80) = 0` nor the bottom row `24` of the exception (no
row reached the height, no scroll ran). -/
theorem C8_row_advance_counterexample :
    cursor_valid (blank_display 0 79) ∧ (∀ c ∈ [65], c ≠ (10 : Int)) ∧
    (put_chars [65] (blank_display 0 79)).cursor_row = 1 ∧
    ¬ ((put_chars [65] (blank_display 0 79)).cursor_row =
          (blank_display 0 79).cursor_row + (([65] : List Int).length : Int) / 80 ∨
        (put_chars [65] (blank_display 0 79)).cursor_row = 24) := by
  decide

/-- C8, amended: from a valid cursor `(row0, col0)`, after `count` calls of
`put_char` with characters other than newline, the row has advanced by the
number of wraps, `(col0 + count) div 80`: the final row is
`row0 + (col0 + count) div 80` when that is at most `24`, and the bottom row
`24` otherwise. A `put_char` whose wrap takes the row to the height `25`
(cursor at `(24, 79)`) runs `scroll` exactly once, which resets the row to
`24`; every other such `put_char` runs no scroll. -/
theorem C8_row_advance (d : Display) (cs : List Int) (h : cursor_valid d)
    (hcs : ∀ c ∈ cs, c ≠ 10) :
    (put_chars cs d).cursor_row = min (d.cursor_row + (d.cursor_col + cs.length) / 80) 24 ∧
    ∀ (e : Display) (c : Int), cursor_valid e → c ≠ 10 →
      put_char c e =
        if e.cursor_row = 24 ∧ e.cursor_col = 79 then scroll (put_char_written c e)
        else put_char_written c e := by
  refine ⟨(put_chars_cursor cs d h hcs).2.2, ?_⟩
  intro e c he hc
  rw [put_char_eq_written c e hc]
  simp only [cursor_valid, VGA_HEIGHT, VGA_WIDTH] at he
  unfold scroll_if_needed
  have hr : (put_char_written c e).cursor_row ≥ VGA_HEIGHT ↔
      (e.cursor_row = 24 ∧ e.cursor_col = 79) := by
    simp only [put_char_written, VGA_HEIGHT, VGA_WIDTH]
    split_ifs <;> omega
  by_cases hq : e.cursor_row = 24 ∧ e.cursor_col = 79
  · rw [if_pos (hr.mpr hq), if_pos hq]
  · rw [if_neg (fun x => hq (hr.mp x)), if_neg hq]

/-- Instance of C8 (amended): three characters printed from `(24, 78)` wrap
once at the bottom row, which scrolls; the final row is the bottom row. -/
theorem C8_row_advance_witness :
    cursor_valid (blank_display 24 78) ∧ (∀ c ∈ [120, 121, 122], c ≠ (10 : Int)) ∧
    (put_chars [120, 121, 122] (blank_display 24 78)).cursor_row = 24 :=
  ⟨by decide, by decide,
    (C8_row_advance (blank_display 24 78) [120, 121, 122] (by decide) (by decide)).1⟩

/-- C9: `scroll` shifts the grid up by one row. After `scroll` the cell at
`(r, c)` holds what the cell at `(r + 1, c)` held before, for `0 ≤ r ≤ 23`
and `0 ≤ c ≤ 79`; every cell of row 24 is the blank glyph `0x0F20`; the
cursor is `(24, 0)`. The copy runs in place in ascending order and never
reads a cell it has already overwritten: the index written by an earlier
iteration `(row1, col1)` differs from the index read by a later iteration
`(row, col)`. -/
theorem C9_scroll_shifts_up (d : Display) :
    (∀ r c : Int, 0 ≤ r → r ≤ 23 → 0 ≤ c → c ≤ 79 →
      (scroll d).vga_buffer (r * VGA_WIDTH + c) = d.vga_buffer ((r + 1) * VGA_WIDTH + c)) ∧
    (∀ c : Int, 0 ≤ c → c ≤ 79 → (scroll d).vga_buffer (24 * VGA_WIDTH + c) = 0x0F20) ∧
    (scroll d).cursor_row = 24 ∧ (scroll d).cursor_col = 0 ∧
    (∀ row col row1 col1 : Int, 1 ≤ row1 → row < VGA_HEIGHT → 0 ≤ col1 → col1 < VGA_WIDTH →
      0 ≤ col → col < VGA_WIDTH → (row1 < row ∨ (row1 = row ∧ col1 < col)) →
      scroll_dst row1 col1 ≠ scroll_src row col) := by
  refine ⟨?_, ?_, rfl, rfl, ?_⟩
  · intro r c h1 h2 h3 h4
    rw [scroll_vga_buffer]
    simp only [VGA_WIDTH]
    split_ifs <;> first | omega | (congr 1; omega)
  · intro c h1 h2
    rw [scroll_vga_buffer]
    simp only [VGA_WIDTH]
    split_ifs <;> first | omega | exact blank_eq
  · intro row col row1 col1 h1 h2 h3 h4 h5 h6 h7
    simp only [scroll_dst, scroll_src, VGA_WIDTH, VGA_HEIGHT] at *
    omega

/-- Instance of C9 on the numbered display: after `scroll`, cell `(2, 7)`
holds the number of cell `(3, 7)`, and cell `(24, 7)` is blank. -/
theorem C9_scroll_shifts_up_witness :
    ((0 : Int) ≤ 2 ∧ (2 : Int) ≤ 23 ∧ (0 : Int) ≤ 7 ∧ (7 : Int) ≤ 79) ∧
    (scroll numbered_display).vga_buffer (2 * VGA_WIDTH + 7) = 247 ∧
    (scroll numbered_display).vga_buffer (24 * VGA_WIDTH + 7) = 0x0F20 :=
  ⟨by decide,
    (C9_scroll_shifts_up numbered_display).1 2 7 (by decide) (by decide) (by decide) (by decide),
    (C9_scroll_shifts_up numbered_display).2.1 7 (by decide) (by decide)⟩

/-- C10: `scroll` applied 25 times in succession leaves every one of the
80x25 cells equal to the blank glyph `0x0F20` and the cursor at `(24, 0)`,
whatever the grid and the cursor were; so the resulting screen is the same
for all starting states. -/
theorem C10_scroll_height_times (d : Display) :
    (∀ r c : Int, 0 ≤ r → r < 25 → 0 ≤ c → c < 80 →
      (scroll^[25] d).vga_buffer (r * VGA_WIDTH + c) = 0x0F20) ∧
    (scroll^[25] d).cursor_row = 24 ∧ (scroll^[25] d).cursor_col = 0 ∧
    ∀ d2 : Display, same_screen (scroll^[25] d) (scroll^[25] d2) := by
  have hb : ∀ (e : Display) (r c : Int), 0 ≤ r → r < 25 → 0 ≤ c → c < 80 →
      (scroll^[25] e).vga_buffer (r * VGA_WIDTH + c) = blank := by
    intro e r c h1 h2 h3 h4
    apply iterate_scroll_blank 25 e <;> simp only [VGA_WIDTH] <;> push_cast <;> omega
  refine ⟨fun r c h1 h2 h3 h4 => (hb d r c h1 h2 h3 h4).trans blank_eq,
    (iterate_scroll_cursor 24 d).1, (iterate_scroll_cursor 24 d).2, ?_⟩
  intro d2
  refine ⟨?_, ?_, ?_⟩
  · rw [(iterate_scroll_cursor 24 d).1, (iterate_scroll_cursor 24 d2).1]
  · rw [(iterate_scroll_cursor 24 d).2, (iterate_scroll_cursor 24 d2).2]
  · intro r c h1 h2 h3 h4
    simp only [VGA_HEIGHT, VGA_WIDTH] at h2 h4
    rw [hb d r c h1 h2 h3 h4, hb d2 r c h1 h2 h3 h4]

/-- Instance of C10 on the numbered display at the top left cell. -/
theorem C10_scroll_height_times_witness :
    ((0 : Int) ≤ 0 ∧ (0 : Int) < 25 ∧ (0 : Int) ≤ 0 ∧ (0 : Int) < 80) ∧
    (scroll^[25] numbered_display).vga_buffer (0 * VGA_WIDTH + 0) = 0x0F20 :=
  ⟨by decide,
    (C10_scroll_height_times numbered_display).1 0 0 (by decide) (by decide) (by decide)
      (by decide)⟩

/-- C11: lenient-prefix parsing. For every string `s`, when the decimal value
`v` of the maximal run of digits `'0'..'9'` that follows the optional
leading `'-'` is at most `2^31 - 1` (`v = 0` for an empty run),
`str_to_int s` is `sign * v`, with `sign = -1` when `s` starts with `'-'` and
`+1` otherwise: parsing stops, without failing, at the first character that
is not a digit. In particular `str_to_int "42abc" = 42`,
`str_to_int "-7" = -7` and `str_to_int "abc" = 0`. -/
theorem C11_str_to_int_lenient (s : List Int)
    (h : decimal_value (digit_run (if s.headD 0 = 45 then s.drop 1 else s)) ≤ 2 ^ 31 - 1) :
    str_to_int s =
      (if s.headD 0 = 45 then -1 else 1) *
        decimal_value (digit_run (if s.headD 0 = 45 then s.drop 1 else s)) ∧
    str_to_int [52, 50, 97, 98, 99] = 42 ∧ str_to_int [45, 55] = -7 ∧
    str_to_int [97, 98, 99] = 0 := by
  refine ⟨?_, by decide, by decide, by decide⟩
  rw [str_to_int_eq s h, lenient_value]
  split <;> rfl

/-- Instance of C11: the string `-12x7` reads as `-12`. -/
theorem C11_str_to_int_lenient_witness :
    decimal_value (digit_run (if ([45, 49, 50, 120, 55] : List Int).headD 0 = 45
      then ([45, 49, 50, 120, 55] : List Int).drop 1 else [45, 49, 50, 120, 55])) ≤ 2 ^ 31 - 1 ∧
    str_to_int [45, 49, 50, 120, 55] =
      (if ([45, 49, 50, 120, 55] : List Int).headD 0 = 45 then -1 else 1) *
        decimal_value (digit_run (if ([45, 49, 50, 120, 55] : List Int).headD 0 = 45
          then ([45, 49, 50, 120, 55] : List Int).drop 1 else [45, 49, 50, 120, 55])) ∧
    str_to_int [45, 49, 50, 120, 55] = -12 :=
  ⟨by decide, (C11_str_to_int_lenient [45, 49, 50, 120, 55] (by decide)).1, by decide⟩

/-- C12 at the most negative `int`, `-2^31`: `num = -num` wraps around to
`-2^31` again, the `do` loop takes `num % 10 = -8`, stores `'0' - 8`, the
character `'('`, and ends after this one iteration since `num / 10` is not
positive. The string that `print_int` builds and passes to `print_string`
is `-(`, and not the standard rendering `-2147483648` (whatever the array
held before, and for every bound on the iterations). -/
theorem C12_print_int_most_negative (fuel : Nat) (junk : Int → Int) :
    (print_int_buffer (fuel + 1) (-2147483648) junk).map
        (fun s => c_string (buffer_chars s.buffer 12)) = some [45, 40] ∧
    int_rendering (-2147483648) = [45, 50, 49, 52, 55, 52, 56, 51, 54, 52, 56] := by
  refine ⟨rfl, ?_⟩
  norm_num [int_rendering, decimal_digits]

/-- C13 as stated fails: the 26 raw codes listed translate to the letters
`a`, `b`, ..., `z` in order, so there is no lowercase letter that no raw
code maps to. -/
theorem C13_letter_table_counterexample :
    [0x1E, 0x30, 0x2E, 0x20, 0x12, 0x21, 0x22, 0x23, 0x17, 0x24, 0x25, 0x26, 0x32, 0x31,
        0x18, 0x19, 0x10, 0x13, 0x1F, 0x14, 0x16, 0x2F, 0x11, 0x2D, 0x15, 0x2C].map
        scancode_to_ascii =
      [97, 98, 99, 100, 101, 102, 103, 104, 105, 106, 107, 108, 109, 110, 111, 112, 113,
        114, 115, 116, 117, 118, 119, 120, 121, 122] ∧
    ¬ ∃ L : Int, 97 ≤ L ∧ L ≤ 122 ∧ ∀ sc : Nat, sc < 256 → scancode_to_ascii sc ≠ L := by
  refine ⟨by decide, ?_⟩
  rintro ⟨L, h1, h2, h3⟩
  obtain ⟨sc, hsc, he⟩ := letters_covered L h1 h2
  exact h3 sc hsc he

/-- C13, amended: the letter table of the scancode translator covers the
whole alphabet: for every lowercase letter `L` in `'a'..'z'` there is an
8-bit raw code `sc` with `scancode_to_ascii sc = L`. -/
theorem C13_letter_table (L : Int) (h1 : 97 ≤ L) (h2 : L ≤ 122) :
    ∃ sc : Nat, sc < 256 ∧ scancode_to_ascii sc = L :=
  letters_covered L h1 h2

/-- Instance of C13 (amended) at the letter `z`. -/
theorem C13_letter_table_witness :
    ((97 : Int) ≤ 122 ∧ (122 : Int) ≤ 122) ∧
    ∃ sc : Nat, sc < 256 ∧ scancode_to_ascii sc = 122 :=
  ⟨by decide, C13_letter_table 122 (by decide) (by decide)⟩

/-- C14 as stated fails: after `clear`, Enter, `help`, Enter the screen does
not show the help text only. The second iteration prints the prompt and
echoes the command on row 0 before the help text is printed from row 2 on:
from a blank screen, cell `(0, 0)` holds `[` (`0x0F5B`), which is not blank
and is not part of the help text; cell `(1, 0)` is blank and cell `(2, 0)`
holds the `A` of `Available commands:`. -/
theorem C14_end_to_end_counterexample :
    ∃ w : Console,
      prompt_loop zero_machine 2
        { display := blank_display 0 0, keys := keys_clear ++ 0x1C :: (keys_help ++ 0x1C :: []) } =
        Outcome.returned w ∧
      w.display.vga_buffer (0 * VGA_WIDTH + 0) = 0x0F5B ∧ (0x0F5B : Nat) ≠ 0x0F20 ∧
      w.display.vga_buffer (1 * VGA_WIDTH + 0) = 0x0F20 ∧
      w.display.vga_buffer (2 * VGA_WIDTH + 0) = 0x0F41 := by
  obtain ⟨w, h1, _, _, _, h4⟩ := prompt_loop_clear_help zero_machine (blank_display 0 0) []
  refine ⟨w, h1, ?_, by decide, ?_, ?_⟩
  · rw [h4 0 0 (by decide) (by decide) (by decide) (by decide)]
    decide
  · rw [h4 1 0 (by decide) (by decide) (by decide) (by decide)]
    decide
  · rw [h4 2 0 (by decide) (by decide) (by decide) (by decide)]
    decide

/-- C14, amended: running the prompt loop of `kernel_main` from any screen
state (also from the start of `kernel_main`) and feeding the key presses for
`clear`, Enter, `help`, Enter makes both iterations return with every key
read, and leaves the screen showing the prompt line with the echoed command,
`[gardOS] $ help`, on row 0, an empty row, and the four lines of the help
text on rows 2 to 5 (`help_rows`); every other cell is blank, and the cursor
is at `(6, 0)`, immediately after the last line of the help text. -/
theorem C14_end_to_end (m : Machine) (d0 : Display) :
    (∃ w : Console,
      prompt_loop m 2
        { display := d0, keys := keys_clear ++ 0x1C :: (keys_help ++ 0x1C :: []) } =
        Outcome.returned w ∧
      w.keys = [] ∧ w.display.cursor_row = 6 ∧ w.display.cursor_col = 0 ∧
      ∀ r c : Int, 0 ≤ r → r < 25 → 0 ≤ c → c < 80 →
        w.display.vga_buffer (r * VGA_WIDTH + c) = text_screen help_rows r c) ∧
    (∃ w : Console,
      kernel_main m 2
        { display := d0, keys := keys_clear ++ 0x1C :: (keys_help ++ 0x1C :: []) } =
        Outcome.returned w ∧
      w.keys = [] ∧ w.display.cursor_row = 6 ∧ w.display.cursor_col = 0 ∧
      ∀ r c : Int, 0 ≤ r → r < 25 → 0 ≤ c → c < 80 →
        w.display.vga_buffer (r * VGA_WIDTH + c) = text_screen help_rows r c) := by
  constructor
  · obtain ⟨w, h1, h2, h3, h4, h5⟩ := prompt_loop_clear_help m d0 []
    exact ⟨w, h1, h2, h3, h4, h5⟩
  · obtain ⟨w, h1, h2, h3, h4, h5⟩ := prompt_loop_clear_help m
      (print_string (List.replicate 80 61) (clear_screen d0)) []
    exact ⟨w, h1, h2, h3, h4, h5⟩

/-- Instance of C14 (amended) from the numbered display: the cell at
`(5, 2)` holds the `p` of `  percentages - ...`, and row 6 is blank. -/
theorem C14_end_to_end_witness :
    ∃ w : Console,
      prompt_loop zero_machine 2
        { display := numbered_display,
          keys := keys_clear ++ 0x1C :: (keys_help ++ 0x1C :: []) } = Outcome.returned w ∧
      w.display.cursor_row = 6 ∧
      w.display.vga_buffer (5 * VGA_WIDTH + 2) = text_screen help_rows 5 2 ∧
      w.display.vga_buffer (6 * VGA_WIDTH + 0) = text_screen help_rows 6 0 ∧
      text_screen help_rows 5 2 = 0x0F70 ∧ text_screen help_rows 6 0 = 0x0F20 :=
  match (C14_end_to_end zero_machine numbered_display).1 with
  | ⟨w, h1, _, h3, _, h5⟩ =>
    ⟨w, h1, h3, h5 5 2 (by decide) (by decide) (by decide) (by decide),
      h5 6 0 (by decide) (by decide) (by decide) (by decide), by decide, by decide⟩

/-- C15 as stated fails at the Enter event, which is a processed key event
too: with capacity 2 on a blank screen, after the keys `a`, Enter the count
is `1` and `buf[0]` is `a`, but the newline has moved the cursor to `(1, 0)`,
and the cell that precedes it in row-major order, `(0, 79)`, holds the blank
glyph `0x0F20`, not `a` with attribute `0x0F` (`0x0F61`). -/
theorem C15_lock_step_counterexample :
    (1 : Int) ≤ 2 ∧ (2 : Int) - 1 ≤ 80 * 24 ∧ cursor_valid (blank_display 0 0) ∧
    (input 2 [0x1E, 0x1C] (fun _ => 0) (blank_display 0 0)).1.count = 1 ∧
    (input 2 [0x1E, 0x1C] (fun _ => 0) (blank_display 0 0)).1.destination 0 = 97 ∧
    cursor_index (input 2 [0x1E, 0x1C] (fun _ => 0) (blank_display 0 0)).1.display = 80 ∧
    (input 2 [0x1E, 0x1C] (fun _ => 0) (blank_display 0 0)).1.display.vga_buffer
      (80 - 1 + 0) = 0x0F20 ∧
    (0x0F20 : Nat) ≠ 0x0F00 + 97 := by
  decide

/-- C15, amended: for every call `input(len, buf)` with `len - 1 ≤ 80 * 24`,
started from a valid cursor and any grid, after every processed key event
other than the terminating Enter (that is, as long as no Enter press was
read) the editor is collecting, the cursor is valid, and the `count` grid
cells immediately preceding the cursor in row-major order hold exactly
`buf[0 .. count-1]` in order, each a printable character with attribute
`0x0F`: the cursor sits at the on-screen end of the line being edited. An
accepted printable character changes the count by `+1` and a successful
backspace by `-1` (moving the cursor back one cell), and the property holds
again afterwards, across row wraps and scrolls. -/
theorem C15_lock_step (len : Int) (keys : List Nat) (destination : Int → Int) (d : Display)
    (hcap : len - 1 ≤ 80 * 24) (hd : cursor_valid d) (hkeys : 0x1C ∉ keys) :
    (input len keys destination d).1.phase = Phase.collecting ∧
    cursor_valid (input len keys destination d).1.display ∧
    0 ≤ (input len keys destination d).1.count ∧
    (input len keys destination d).1.count ≤
      cursor_index (input len keys destination d).1.display ∧
    (∀ k : Int, 0 ≤ k → k < (input len keys destination d).1.count →
      is_printable ((input len keys destination d).1.destination k) ∧
      (input len keys destination d).1.display.vga_buffer
          (cursor_index (input len keys destination d).1.display -
            (input len keys destination d).1.count + k) =
        0x0F00 + ((input len keys destination d).1.destination k).toNat) ∧
    (∀ sc : Nat, printable_key sc → (input len keys destination d).1.count < len - 1 →
      (input len (keys ++ [sc]) destination d).1.count =
        (input len keys destination d).1.count + 1) ∧
    ((input len keys destination d).1.count > 0 →
      (input len (keys ++ [0x0E]) destination d).1.count =
        (input len keys destination d).1.count - 1 ∧
      cursor_index (input len (keys ++ [0x0E]) destination d).1.display =
        cursor_index (input len keys destination d).1.display - 1) := by
  have hcap' : len - 1 ≤ 1920 := by omega
  obtain ⟨e, hv, h0, hp, hcells⟩ := lock_step_input len keys destination d hcap' hd hkeys
  have happ : ∀ sc : Nat, sc ≠ 0x1C →
      (input len (keys ++ [sc]) destination d).1 =
        input_step len sc (input len keys destination d).1 := by
    intro sc hsc
    have hk2 : 0x1C ∉ keys ++ [sc] := by
      intro hmem
      rcases List.mem_append.mp hmem with h | h
      · exact hkeys h
      · exact hsc (List.mem_singleton.mp h).symm
    rw [(lock_step_input len (keys ++ [sc]) destination d hcap' hd hk2).1, e, input_steps,
      List.foldl_append]
    rfl
  refine ⟨?_, hv, h0, hp, ?_, ?_, ?_⟩
  · exact input_collecting len keys destination d hkeys
  · intro k hk0 hk1
    obtain ⟨c1, c2⟩ := hcells k hk0 hk1
    refine ⟨c1, ?_⟩
    rw [c2]
    apply vga_entry_ascii
    · simp only [is_printable] at c1
      omega
    · simp only [is_printable] at c1
      omega
  · intro sc hsc hroom
    have hne : sc ≠ 0x1C := by
      intro h
      have := (printable_key_char sc hsc).2.2
      exact this ((scancode_to_ascii_newline sc).mpr h)
    rw [happ sc hne, input_step_printable len sc _ hsc, if_pos hroom]
  · intro hcount
    rw [happ 0x0E (by decide), input_step_backspace, if_pos hcount]
    exact ⟨rfl, (input_backspace_index _ hv (by omega)).1⟩

/-- Instance of C15 (amended): capacity 150, the keys `a`, `s`, backspace
typed at the bottom right corner of a blank screen. -/
theorem C15_lock_step_witness :
    (150 : Int) - 1 ≤ 80 * 24 ∧ cursor_valid (blank_display 24 79) ∧
    0x1C ∉ [0x1E, 0x1F, 0x0E] ∧
    (input 150 [0x1E, 0x1F, 0x0E] (fun _ => 0) (blank_display 24 79)).1.count ≤
      cursor_index (input 150 [0x1E, 0x1F, 0x0E] (fun _ => 0) (blank_display 24 79)).1.display :=
  ⟨by decide, by decide, by decide,
    (C15_lock_step 150 [0x1E, 0x1F, 0x0E] (fun _ => 0) (blank_display 24 79) (by decide)
      (by decide) (by decide)).2.2.2.1⟩

/-- C16: the newline event is the only exit of the line editor. With the
keyboard a sequence of raw codes, `input` reaches the state `done` if and
only if the sequence contains the Enter press code `0x1C`; it returns upon
the first `0x1C`, consuming no key after it; and on a sequence without
`0x1C` it consumes every key and remains `collecting`. -/
theorem C16_enter_only_exit (len : Int) (keys : List Nat) (destination : Int → Int)
    (d : Display) :
    ((input len keys destination d).1.phase = Phase.done ↔ 0x1C ∈ keys) ∧
    (∀ pre post : List Nat, keys = pre ++ 0x1C :: post → 0x1C ∉ pre →
      (input len keys destination d).1.phase = Phase.done ∧
      (input len keys destination d).2 = post) ∧
    (0x1C ∉ keys →
      (input len keys destination d).1.phase = Phase.collecting ∧
      (input len keys destination d).2 = []) := by
  have hne : ∀ ks : List Nat, 0x1C ∉ ks → ∀ k ∈ ks, scancode_to_ascii k ≠ 10 := by
    intro ks hks k hk h10
    exact hks ((scancode_to_ascii_newline k).mp h10 ▸ hk)
  refine ⟨input_loop_done_iff len keys _ rfl, ?_, ?_⟩
  · intro pre post hkeys hpre
    have h := (input_loop_append len (0x1C :: post) pre
      { count := 0, destination := destination, stores := [], display := d,
        phase := Phase.collecting } rfl (hne pre hpre)).1
    rw [hkeys, input, h, input_loop, if_pos (input_step_enter_phase len _)]
    exact ⟨input_step_enter_phase len _, rfl⟩
  · intro hk
    obtain ⟨h1, h2⟩ := input_loop_append len [] keys
      { count := 0, destination := destination, stores := [], display := d,
        phase := Phase.collecting } rfl (hne keys hk)
    rw [List.append_nil] at h1
    rw [input, h1, input_loop]
    exact ⟨h2, rfl⟩

/-- Instance of C16: the keys `a`, Enter, `s`, Enter; `input` returns at the
first Enter and leaves `s`, Enter unread. -/
theorem C16_enter_only_exit_witness :
    (input 10 [0x1E, 0x1C, 0x1F, 0x1C] (fun _ => 7) (blank_display 0 0)).1.phase = Phase.done ∧
    (input 10 [0x1E, 0x1C, 0x1F, 0x1C] (fun _ => 7) (blank_display 0 0)).2 = [0x1F, 0x1C] :=
  (C16_enter_only_exit 10 [0x1E, 0x1C, 0x1F, 0x1C] (fun _ => 7) (blank_display 0 0)).2.1
    [0x1E] [0x1F, 0x1C] rfl (by decide)

/-- C17 at a character with the high bit set. The C type `char` of the
target is signed: the value with bit pattern `0x80` is `-128`, and its
promotion to `int` in `(WHITE_ON_BLACK << 8) | c` extends the sign. From
every valid cursor, `put_char (-128)` leaves in the cell it writes
(`echo_cell`) the unit `0xFF80`: the low byte is the character, the high
byte is `0xFF`, not the attribute `0x0F`. -/
theorem C17_put_char_high_bit (d : Display) (hd : cursor_valid d) :
    (put_char (-128) d).vga_buffer (echo_cell d) = 0xFF80 ∧
    (0xFF80 : Nat) % 256 = 0x80 ∧ (0xFF80 : Nat) / 256 = 0xFF ∧ (0xFF : Nat) ≠ WHITE_ON_BLACK :=
  ⟨(put_char_echo_cell (-128) d (by decide) hd).trans (by decide), by decide, by decide,
    by decide⟩

/-- Instance of C17 at the top left corner of a blank screen: `put_char` on
the character `0x80` leaves `0xFF80` in cell `(0, 0)`. -/
theorem C17_put_char_high_bit_witness :
    cursor_valid (blank_display 0 0) ∧ echo_cell (blank_display 0 0) = 0 ∧
    (put_char (-128) (blank_display 0 0)).vga_buffer (echo_cell (blank_display 0 0)) = 0xFF80 :=
  ⟨by decide, by decide, (C17_put_char_high_bit (blank_display 0 0) (by decide)).1⟩

/-- C18: format/parse round trip. For every integer `n` with
`-(2^31 - 1) ≤ n ≤ 2^31 - 1`, `print_int` builds its string (the `do` loop
ends within 10 iterations), and `str_to_int` applied to the array that
`print_int` passes to `print_string` returns `n`. -/
theorem C18_format_parse_round_trip (fuel : Nat) (n : Int) (junk : Int → Int)
    (hf : 10 ≤ fuel) (h1 : -(2 ^ 31 - 1) ≤ n) (h2 : n ≤ 2 ^ 31 - 1) :
    ∃ r : PrintInt, print_int_buffer fuel n junk = some r ∧
      c_string (buffer_chars r.buffer 12) = int_rendering n ∧
      str_to_int (buffer_chars r.buffer 12) = n := by
  obtain ⟨r, r1, _, r3, r4, r5, _⟩ := print_int_buffer_spec fuel hf n junk (by omega) (by omega)
  obtain ⟨rest, hrest⟩ := print_int_array r (int_rendering n) r5 r3 r4
  refine ⟨r, r1, ?_, ?_⟩
  · rw [hrest]
    exact c_string_append_nul _ _ (int_rendering_ne_nul n)
  · rw [hrest]
    exact str_to_int_rendering n rest (by omega) (by omega)

/-- Instance of C18 at `n = -2147483647`. -/
theorem C18_format_parse_round_trip_witness :
    (10 ≤ 10 ∧ -(2 ^ 31 - 1) ≤ (-2147483647 : Int) ∧ (-2147483647 : Int) ≤ 2 ^ 31 - 1) ∧
    ∃ r : PrintInt, print_int_buffer 10 (-2147483647) (fun _ => 7) = some r ∧
      c_string (buffer_chars r.buffer 12) = int_rendering (-2147483647) ∧
      str_to_int (buffer_chars r.buffer 12) = -2147483647 :=
  ⟨by decide,
    C18_format_parse_round_trip 10 (-2147483647) (fun _ => 7) (by decide) (by decide)
      (by decide)⟩

/-- C19: `print_int` never overruns its 12-byte local buffer. For every
32-bit signed `n` (the negation wraps around to 32 bits), the `do` loop ends
within 10 iterations, every index at which `buffer` is written or read
(digits, sign, terminator and both sides of each swap of the reversal) is in
`0 .. 11`, and the terminator sits at an index `i` in `0 .. 11`. -/
theorem C19_print_int_buffer_bounds (n : Int) (junk : Int → Int)
    (h1 : -2 ^ 31 ≤ n) (h2 : n ≤ 2 ^ 31 - 1) :
    (∃ s : PrintInt, print_int_digits 10
      { buffer := junk, i := 0, num := if n < 0 then to_int32 (-n) else n, touched := [] } =
        some s) ∧
    ∃ r : PrintInt, print_int_buffer 10 n junk = some r ∧
      (∀ fuel : Nat, 10 ≤ fuel → print_int_buffer fuel n junk = some r) ∧
      (∀ x ∈ r.touched, 0 ≤ x ∧ x ≤ 11) ∧ 0 ≤ r.i ∧ r.i ≤ 11 ∧ r.buffer r.i = 0 := by
  obtain ⟨r, r1, r2, r3, r4, r5⟩ := print_int_buffer_bounds 10 (le_refl 10) n junk
    (by omega) (by omega)
  refine ⟨print_int_buffer_digits 10 n junk r r1, r, r1, ?_, r2, r3, r4, r5⟩
  intro fuel hf
  obtain ⟨s, hs⟩ := print_int_buffer_digits 10 n junk r r1
  obtain ⟨k, rfl⟩ : ∃ k, fuel = 10 + k := ⟨fuel - 10, by omega⟩
  have hk := print_int_digits_mono_add 10 _ s hs k
  have e10 : print_int_buffer 10 n junk = some (print_int_finish (decide (n < 0)) s) := by
    simp only [print_int_buffer, hs]
  have ek : print_int_buffer (10 + k) n junk = some (print_int_finish (decide (n < 0)) s) := by
    simp only [print_int_buffer, hk]
  rw [ek, ← e10, r1]

/-- Instance of C19 at the most negative `int`. -/
theorem C19_print_int_buffer_bounds_witness :
    (-2 ^ 31 ≤ (-2147483648 : Int) ∧ (-2147483648 : Int) ≤ 2 ^ 31 - 1) ∧
    ∃ r : PrintInt, print_int_buffer 10 (-2147483648) (fun _ => 7) = some r ∧
      (∀ fuel : Nat, 10 ≤ fuel → print_int_buffer fuel (-2147483648) (fun _ => 7) = some r) ∧
      (∀ x ∈ r.touched, 0 ≤ x ∧ x ≤ 11) ∧ 0 ≤ r.i ∧ r.i ≤ 11 ∧ r.buffer r.i = 0 :=
  ⟨by decide,
    (C19_print_int_buffer_bounds (-2147483648) (fun _ => 7) (by decide) (by decide)).2⟩

/-- C20: for every pair of NUL-terminated strings `s1` and `s2`,
`strcmp s1 s2` is `0` if and only if `s1` and `s2` are the same character
sequence. Hence `execute_command` selects a command branch only on an
exact, whole-line match of the typed text: the branch is `clear`, `help`,
`reboot` or `percentages` exactly when the text is that word, and the
`unknown` branch otherwise. -/
theorem C20_strcmp_exact_match (s1 s2 cmd : List Int) :
    (strcmp s1 s2 = 0 ↔ c_string s1 = c_string s2) ∧
    (select_command cmd = Command.clear ↔ c_string cmd = str "clear") ∧
    (select_command cmd = Command.help ↔ c_string cmd = str "help") ∧
    (select_command cmd = Command.reboot ↔ c_string cmd = str "reboot") ∧
    (select_command cmd = Command.percentages ↔ c_string cmd = str "percentages") ∧
    (select_command cmd = Command.unknown ↔
      c_string cmd ∉ [str "clear", str "help", str "reboot", str "percentages"]) := by
  have d12 : str "clear" ≠ str "help" := by decide
  have d13 : str "clear" ≠ str "reboot" := by decide
  have d14 : str "clear" ≠ str "percentages" := by decide
  have d23 : str "help" ≠ str "reboot" := by decide
  have d24 : str "help" ≠ str "percentages" := by decide
  have d34 : str "reboot" ≠ str "percentages" := by decide
  refine ⟨strcmp_eq_zero_iff s1 s2, ?_⟩
  rw [select_command_eq]
  by_cases h1 : c_string cmd = str "clear"
  · simp [h1, d12, d13, d14]
  · by_cases h2 : c_string cmd = str "help"
    · simp [h2, d12.symm, d23, d24]
    · by_cases h3 : c_string cmd = str "reboot"
      · simp [h3, d13.symm, d23.symm, d34]
      · by_cases h4 : c_string cmd = str "percentages"
        · simp [h4, d14.symm, d24.symm, d34.symm]
        · simp [h1, h2, h3, h4]

end GardOS
